import Mathlib

/-!
Verification of the FHIR data-preprocessing script
(src/miscellaneous/fhir-server/scripts/data-preprocessing-script/script.py).

The script rewrites FHIR Bundle JSON documents: it builds per-document and
global identifier maps, injects Coverage resources before each
ExplanationOfBenefit entry, and recursively rewrites reference nodes.

The embedding below models JSON values as an inductive tree (objects are
ordered association lists, as Python dicts preserve insertion order), and
translates each Python function into a Lean function of the same name.
Python raises exceptions on shape errors (for example calling .get on a
non-dict); those crash paths are modelled as skips and are marked with a
comment where they occur.  Non-string values in positions the script only
ever fills with strings (resourceType, id, identifier value, fullUrl) are
modelled as described at each site.
-/

/-- A JSON value.  Numbers are modelled as integers: the script never
computes with numbers, it only carries them through, and no claim depends
on float behaviour. -/
inductive JSON where
  | null : JSON
  | bool : Bool → JSON
  | num : Int → JSON
  | str : String → JSON
  | arr : List JSON → JSON
  | obj : List (String × JSON) → JSON

namespace Script

/-- First-match lookup in an association list (Python dict .get). -/
def lookupM {α : Type} : List (String × α) → String → Option α
  | [], _ => none
  | (k0, v0) :: rest, k => if k0 = k then some v0 else lookupM rest k

/-- Python dict assignment d[k] = v: update the first matching key in
place (keeping its position), else append at the end. -/
def updMap {α : Type} : List (String × α) → String → α → List (String × α)
  | [], k, v => [(k, v)]
  | (k0, v0) :: rest, k, v =>
    if k0 = k then (k0, v) :: rest else (k0, v0) :: updMap rest k v

/-- Key presence (Python: k in d). -/
def hasKey {α : Type} (fs : List (String × α)) (k : String) : Bool :=
  (lookupM fs k).isSome

/-- The keys of an association list, in order. -/
def keysF {α : Type} (fs : List (String × α)) : List String :=
  fs.map Prod.fst

/-- Python truthiness of a JSON value (used for resource ids and
identifier values: empty string, 0, empty containers, None, False are
falsy). -/
def truthyJ : JSON → Bool
  | .null => false
  | .bool b => b
  | .num n => n != 0
  | .str s => s != ""
  | .arr xs => !xs.isEmpty
  | .obj fs => !fs.isEmpty

/-- Python str() of a JSON value, as used inside f-strings.  Containers
are not modelled (the script never formats one on the claim-relevant
paths). -/
def pyStr : JSON → String
  | .str s => s
  | .num n => toString n
  | .bool true => "True"
  | .bool false => "False"
  | .null => "None"
  | _ => ""

/-! ## Character-level string helpers

All string predicates are computed over the character list of a string so
that concrete instances reduce inside the kernel. -/

/-- The characters of a string. -/
def chars (s : String) : List Char := s.data

/-- Does the pattern (first argument) occur at the head of the text? -/
def isPreL : List Char → List Char → Bool
  | [], _ => true
  | _ :: _, [] => false
  | p :: ps, c :: cs => p == c && isPreL ps cs

/-- Does the pattern occur anywhere in the text (Python: pat in s)? -/
def hasSubL (text pat : List Char) : Bool :=
  isPreL pat text ||
    match text with
    | [] => false
    | _ :: rest => hasSubL rest pat

/-- Python: pat in s. -/
def strHasSub (s pat : String) : Bool := hasSubL (chars s) (chars pat)

/-- Python: s.startswith(pat). -/
def strStarts (s pat : String) : Bool := isPreL (chars pat) (chars s)

/-- Left-to-right non-overlapping replacement, fuelled by the text length
(the fuel is always sufficient; it only bounds the recursion). -/
def replF : Nat → List Char → List Char → List Char → List Char
  | 0, text, _, _ => text
  | f + 1, text, old, new =>
    match text with
    | [] => []
    | c :: rest =>
      if !old.isEmpty && isPreL old text then
        new ++ replF f (text.drop old.length) old new
      else c :: replF f rest old new

/-- Python: s.replace(old, new), replacing every occurrence (the script
uses it to strip every occurrence of the urn:uuid prefix). -/
def strReplace (s old new : String) : String :=
  String.mk (replF (chars s).length (chars s) (chars old) (chars new))

/-- Split at the first slash: Python s.split("/", 1) when "/" occurs in
s; returns none when there is no slash. -/
def breakAtSlash : List Char → Option (List Char × List Char)
  | [] => none
  | c :: rest =>
    if c == '/' then some ([], rest)
    else
      match breakAtSlash rest with
      | none => none
      | some (a, b) => some (c :: a, b)

/-- Split a character list on the hyphen character. -/
def splitDash : List Char → List (List Char)
  | [] => [[]]
  | c :: rest =>
    if c == '-' then [] :: splitDash rest
    else
      match splitDash rest with
      | [] => [[c]]
      | g :: gs => (c :: g) :: gs

/-- A hexadecimal digit. -/
def isHexChar (c : Char) : Bool :=
  ('0' ≤ c && c ≤ '9') || ('a' ≤ c && c ≤ 'f') || ('A' ≤ c && c ≤ 'F')

/-- The 8-4-4-4-12 hexadecimal group shape, on the whole character
list. -/
def uuidCore (cs : List Char) : Bool :=
  match splitDash cs with
  | [a, b, c, d, e] =>
    a.length == 8 && b.length == 4 && c.length == 4 && d.length == 4 &&
      e.length == 12 && (a ++ b ++ c ++ d ++ e).all isHexChar
  | _ => false

/-- is_uuid_format (script lines 55-68): re.match against
  [0-9a-fA-F]-groups 8-4-4-4-12 anchored with a dollar.  A Python dollar
  also matches just before one trailing newline, hence the second
  disjunct. -/
def is_uuid_format (s : String) : Bool :=
  uuidCore (chars s) ||
    ((chars s).getLast? == some '\n' && uuidCore (chars s).dropLast)

/-! ## Sizes (used only as recursion fuel bounds) -/

mutual
/-- Structural size of a JSON value (at least 1). -/
def jsize : JSON → Nat
  | .obj fs => 1 + jsizeF fs
  | .arr xs => 1 + jsizeL xs
  | _ => 1
/-- Total size of the elements of a list. -/
def jsizeL : List JSON → Nat
  | [] => 0
  | x :: xs => jsize x + jsizeL xs
/-- Total size of the values of an association list. -/
def jsizeF : List (String × JSON) → Nat
  | [] => 0
  | (_, v) :: fs => jsize v + jsizeF fs
end

/-! ## The regex of the identifier-reference branch

Python (script line 122): re.match of
  word-chars, literal ?identifier=, non-pipe chars, literal pipe, then
  one or more characters (dot does not match a newline).
Since a word char can never match the literal question mark, the greedy
groups admit no backtracking: the match is the maximal word-char run,
the literal, the maximal non-pipe run, the first pipe, then a non-empty
newline-free run.  re.match does not require reaching the end of the
string. -/

/-- ASCII approximation of the regex word-char class (the script only
ever sees ASCII resource types in this position). -/
def wordChar (c : Char) : Bool := c.isAlphanum || c == '_'

/-- The three capture groups of the identifier-reference pattern, or none
if the pattern does not match at position 0. -/
def identGroups (s : String) : Option (String × String × String) :=
  let cs := chars s
  let w := cs.takeWhile wordChar
  let rest1 := cs.dropWhile wordChar
  if w.isEmpty then none
  else if isPreL (chars "?identifier=") rest1 then
    let rest2 := rest1.drop (chars "?identifier=").length
    let sys := rest2.takeWhile (fun c => c != '|')
    let rest3 := rest2.dropWhile (fun c => c != '|')
    if sys.isEmpty then none
    else
      match rest3 with
      | '|' :: tail =>
        let val := tail.takeWhile (fun c => c != '\n')
        if val.isEmpty then none
        else some (String.mk w, String.mk sys, String.mk val)
      | _ => none
  else none

/-! ## The reference-resolution step (script lines 108-160)

The elif chain over the string value of an object node reference field.
Returns some t when the object is kept and its reference becomes t
(possibly unchanged), none when the object is marked for removal. -/

/-- Threaded read-only context of replace_references: the two maps and
the two configured ids (None in Python is modelled as Option.none). -/
structure Ctx where
  uuidMap : List (String × String)
  identifierMap : List (String × (String × String))
  organizationId : Option String
  practitionerId : Option String

/-- Python truthiness of an optional string argument. -/
def truthyS : Option String → Bool
  | some s => s != ""
  | none => false

/-- The organization id as the string used in f-strings (it is only used
under a truthiness guard, so the default is never observable). -/
def orgIdStr (ctx : Ctx) : String := ctx.organizationId.getD ""

/-- The practitioner id as the string used in f-strings. -/
def practIdStr (ctx : Ctx) : String := ctx.practitionerId.getD ""

/-- The elif chain of script lines 112-160 on a reference string.
none means the enclosing object is marked for removal. -/
def refResolveStr (ctx : Ctx) (s : String) : Option String :=
  if strStarts s "urn:uuid:" then
    -- line 113: every occurrence of the prefix is replaced (str.replace)
    let u := strReplace s "urn:uuid:" ""
    match lookupM ctx.uuidMap u with
    | some t => some (t ++ "/" ++ u)
    | none => some s          -- line 119: warning only, left unchanged
  else if strHasSub s "?identifier=" && strHasSub s "|" then
    match identGroups s with
    | some (_rt, _sys, v) =>
      match lookupM ctx.identifierMap v with
      | some (mt, mid) => some (mt ++ "/" ++ mid)
      | none => none          -- line 135: removal
    | none => some s          -- no regex match: nothing happens
  else if strStarts s "#" then none   -- line 139: internal reference
  else
    match breakAtSlash (chars s) with
    | some (_before, after) =>
      if is_uuid_format (String.mk after) then some s
      else
        match lookupM ctx.identifierMap (String.mk after) with
        | some (mt, mid) => some (mt ++ "/" ++ mid)
        | none => none        -- line 160: removal
    | none => some s          -- no recognized shape

/-- Step 1 of the object case (lines 108-160): if the object has a string
reference field, resolve it; none propagates removal of the object. -/
def ref_step (ctx : Ctx) (fs : List (String × JSON)) :
    Option (List (String × JSON)) :=
  match lookupM fs "reference" with
  | some (.str s) =>
    match refResolveStr ctx s with
    | none => none
    | some t => some (updMap fs "reference" (.str t))
  | _ => some fs

/-! ## The recursive tree walk (replace_references, lines 71-245) -/

/-- Is the resourceType field of this object the given string?  (A
Python == comparison against a string is False for non-string values.) -/
def rtIs (fs : List (String × JSON)) (t : String) : Bool :=
  match lookupM fs "resourceType" with
  | some (.str u) => u == t
  | _ => false

/-- Is the value a JSON list? -/
def isArrB : JSON → Bool
  | .arr _ => true
  | _ => false

/-- Lines 205-208: delete additionalInstruction from each dict element
of a dosageInstruction list (in place, before the recursive descent). -/
def strip_dosage_items : List JSON → List JSON
  | [] => []
  | .obj g :: rest =>
    .obj (g.filter (fun kv => kv.1 != "additionalInstruction")) ::
      strip_dosage_items rest
  | x :: rest => x :: strip_dosage_items rest

/-- Lines 203-208 as a value transformation: the in-place mutation of a
MedicationRequest dosageInstruction list before the generic recursion
(there is no continue, so the loop then recurses into this value). -/
def dosage_step (isMr : Bool) (k : String) (v : JSON) : JSON :=
  match v with
  | .arr xs =>
    if isMr && k == "dosageInstruction" then .arr (strip_dosage_items xs)
    else .arr xs
  | w => w

/-- String membership in a list of deleted keys. -/
def memS : List String → String → Bool
  | [], _ => false
  | d :: ds, k => d == k || memS ds k

/-- Apply the deferred del statements of lines 231-232. -/
def eraseKeysL (fs : List (String × JSON)) (dels : List String) :
    List (String × JSON) :=
  fs.filter (fun kv => !(memS dels kv.1))

/-- The walk applied to an injected provider or who object
  -- a dict with a single string reference field, reached with all
  ancestor flags false.  Spelled out without recursion; the lemma
  goInjected_eq_go below certifies that it equals the generic walk on
  that object. -/
def goInjected (ctx : Ctx) (s : String) : Option JSON :=
  match refResolveStr ctx s with
  | none => none
  | some t => some (.obj [("reference", .str t)])

mutual
/-- replace_references (lines 71-245), fuelled.  The outer none means
out of fuel (never the case from the wrappers below); the inner
Option is the Python return value, none meaning the node is removed.
Flags: e = in_eob_care_team, p = in_provenance_agent,
c = in_careplan_care_team.  The parent_key parameter of the script is
passed along but never read, so it is not modelled. -/
def goF : Nat → Ctx → Bool → Bool → Bool → JSON → Option (Option JSON)
  | 0, _, _, _, _, _ => none
  | f + 1, ctx, e, p, c, j =>
    match j with
    | .obj fs =>
      -- lines 98-105: context facts from the object itself
      let isObs := rtIs fs "Observation"
      let isCp := rtIs fs "CarePlan"
      let isMr := rtIs fs "MedicationRequest"
      match ref_step ctx fs with
      | none => some none
      | some fs1 =>
        -- lines 162-167: provider injection (appended at the end)
        let injProv := e && truthyS ctx.organizationId && !hasKey fs1 "provider"
        -- lines 169-178: CarePlan.careTeam shape enforcement
        let filterOn := c && hasKey fs1 "reference"
        let fsF :=
          if filterOn then
            fs1.filter (fun kv => kv.1 == "reference" || kv.1 == "display")
          else fs1
        -- the filter also deletes a provider field injected just above
        let provKept := injProv && !filterOn
        -- lines 180-185: who injection (after the filter)
        let injWho := p && truthyS ctx.practitionerId && !hasKey fsF "who"
        -- lines 187-232: snapshot iteration with in-place updates and
        -- deferred deletions; the injected provider and who entries sit
        -- at the end of the snapshot and are processed by goInjected
        match goEF f ctx isObs isCp isMr fsF fsF [] with
        | none => none
        | some (curF, delsF) =>
          let provFields :=
            if provKept then
              match goInjected ctx ("Organization/" ++ orgIdStr ctx) with
              | some r => [("provider", r)]
              | none => []
            else []
          let whoFields :=
            if injWho then
              match goInjected ctx ("Practitioner/" ++ practIdStr ctx) with
              | some r => [("who", r)]
              | none => []
            else []
          some (some (.obj (eraseKeysL curF delsF ++ provFields ++ whoFields)))
    | .arr xs =>
      -- lines 234-243: lists keep survivors in order, never removed
      match goLF f ctx e p c xs with
      | none => none
      | some ys => some (some (.arr ys))
    | other => some (some other)   -- line 245: scalars unchanged

/-- The list case of replace_references: recurse per element with the
same flags, drop elements whose result is removal. -/
def goLF : Nat → Ctx → Bool → Bool → Bool → List JSON → Option (List JSON)
  | 0, _, _, _, _, _ => none
  | f + 1, ctx, e, p, c, xs =>
    match xs with
    | [] => some []
    | x :: rest =>
      match goF f ctx e p c x with
      | none => none
      | some none => goLF f ctx e p c rest
      | some (some r) =>
        match goLF f ctx e p c rest with
        | none => none
        | some ys => some (r :: ys)

/-- The snapshot loop of lines 188-229: pending is the remaining part of
the list(obj.items()) snapshot, cur the current state of the dict, dels
the keys_to_delete accumulator.  The per-iteration facts is_eob and the
Provenance check read the current dict (lines 211, 220); is_observation,
is_careplan, is_medication_request were computed before the loop from
the original object and arrive as the three booleans. -/
def goEF : Nat → Ctx → Bool → Bool → Bool → List (String × JSON) →
    List (String × JSON) → List String →
    Option (List (String × JSON) × List String)
  | 0, _, _, _, _, _, _, _ => none
  | f + 1, ctx, isObs, isCp, isMr, pending, cur, dels =>
    match pending with
    | [] => some (cur, dels)
    | (k, v) :: rest =>
      if k == "period" then          -- lines 191-194
        goEF f ctx isObs isCp isMr rest cur (dels ++ [k])
      else if isObs && k == "valueCodeableConcept" then  -- lines 197-200
        goEF f ctx isObs isCp isMr rest cur (dels ++ [k])
      else
        let v1 := dosage_step isMr k v
        let eEob := k == "careTeam" && isArrB v1 && rtIs cur "ExplanationOfBenefit"
        let eCp := k == "careTeam" && isArrB v1 && isCp
        let eProv := k == "agent" && isArrB v1 && rtIs cur "Provenance"
        match goF f ctx eEob eProv eCp v1 with
        | none => none
        | some none =>               -- lines 225-227: mark for deletion
          goEF f ctx isObs isCp isMr rest (updMap cur k v1) (dels ++ [k])
        | some (some r) =>           -- line 229: write back
          goEF f ctx isObs isCp isMr rest (updMap cur k r) dels
end

/-- replace_references on a node, with sufficient fuel. -/
def go (ctx : Ctx) (e p c : Bool) (j : JSON) : Option JSON :=
  (goF (2 * jsize j) ctx e p c j).getD none

/-- The list walk, with sufficient fuel. -/
def goListW (ctx : Ctx) (e p c : Bool) (xs : List JSON) : List JSON :=
  (goLF (2 * jsizeL xs + 1) ctx e p c xs).getD []

/-- The snapshot loop, with sufficient fuel. -/
def goEntriesW (ctx : Ctx) (isObs isCp isMr : Bool)
    (pending cur : List (String × JSON)) (dels : List String) :
    List (String × JSON) × List String :=
  (goEF (2 * jsizeF pending + 1) ctx isObs isCp isMr pending cur dels).getD
    (cur, dels)

/-- The top-level call of replace_references as made by
process_json_file (line 361): all ancestor flags start false. -/
def replace_references (ctx : Ctx) (j : JSON) : Option JSON :=
  go ctx false false false j

/-! ## The index builders (script lines 13-52 and 375-412) -/

/-- The fields of an entry object (a non-dict entry raises at entry.get
in Python; modelled as having no fields). -/
def entry_fields (e : JSON) : List (String × JSON) :=
  match e with
  | .obj efs => efs
  | _ => []

/-- entry.get("resource", {}) as a field list (a non-dict resource value
would raise at resource.get in Python; modelled as no fields). -/
def entry_resource_fields (e : JSON) : List (String × JSON) :=
  match lookupM (entry_fields e) "resource" with
  | some (.obj rfs) => rfs
  | _ => []

/-- entry.get("fullUrl", "") (a non-string value would raise at
.startswith in Python; modelled as the default empty string). -/
def entry_full_url (e : JSON) : String :=
  match lookupM (entry_fields e) "fullUrl" with
  | some (.str s) => s
  | _ => ""

/-- The entry list both builders iterate, behind the shared guard
  data.get("resourceType") == "Bundle" and "entry" in data
(lines 29 and 394).  Iterating a non-list entry value is not modelled
(it would iterate keys or characters, contributing nothing since those
elements are not dicts). -/
def bundle_entries (data : JSON) : List JSON :=
  match data with
  | .obj dfs =>
    if rtIs dfs "Bundle" && hasKey dfs "entry" then
      match lookupM dfs "entry" with
      | some (.arr es) => es
      | _ => []
    else []
  | _ => []

/-- resource.get("identifier", []) as a list (iterating a non-list value
yields no dict elements, hence no map entries; modelled as empty). -/
def identifier_entries (rfs : List (String × JSON)) : List JSON :=
  match lookupM rfs "identifier" with
  | some (.arr ids) => ids
  | _ => []

/-- One identifier element (lines 45-50 = 402-407): a dict with a truthy
value contributes value -> (resourceType, id), last write wins.  A truthy
non-string value would be stored under a non-string dict key, which no
later string lookup can equal; such entries are therefore not modelled. -/
def identValueStep (rt rid : String) (acc : List (String × (String × String)))
    (idj : JSON) : List (String × (String × String)) :=
  match idj with
  | .obj ifs =>
    match lookupM ifs "value" with
    | some (.str s) => if s != "" then updMap acc s (rt, rid) else acc
    | _ => acc
  | _ => acc

/-- The identifier extraction shared verbatim by the two builders
(lines 43-50 and 400-407): under the guard that resourceType and id are
both truthy, fold the identifier list.  Non-string resourceType values
(which Python would carry into the map) are not modelled; the script
only ever produces string resource types. -/
def resource_identifier_step (acc : List (String × (String × String)))
    (rfs : List (String × JSON)) : List (String × (String × String)) :=
  match lookupM rfs "resourceType", lookupM rfs "id" with
  | some (.str t), some ridj =>
    if t != "" && truthyJ ridj then
      (identifier_entries rfs).foldl (identValueStep t (pyStr ridj)) acc
    else acc
  | _, _ => acc

/-- One entry of the builder loop (lines 30-50): only under the urn:uuid
fullUrl guard, record UUID -> resourceType and the identifier
mappings. -/
def build_entry_step
    (maps : List (String × String) × List (String × (String × String)))
    (e : JSON) :
    List (String × String) × List (String × (String × String)) :=
  let fu := entry_full_url e
  let rfs := entry_resource_fields e
  if strStarts fu "urn:uuid:" then
    let uuid := strReplace fu "urn:uuid:" ""
    let um :=
      match lookupM rfs "resourceType" with
      | some (.str t) => if t != "" then updMap maps.1 uuid t else maps.1
      | _ => maps.1
    (um, resource_identifier_step maps.2 rfs)
  else maps

/-- build_uuid_to_resource_type_map (lines 13-52). -/
def build_uuid_to_resource_type_map (data : JSON) :
    List (String × String) × List (String × (String × String)) :=
  (bundle_entries data).foldl build_entry_step ([], [])

/-- build_global_identifier_map (lines 375-412) on already-parsed
documents: the same per-entry identifier extraction, with no urn:uuid
guard, folded across the whole batch.  File reading and the per-file
exception isolation are driver concerns outside the embedding. -/
def build_global_identifier_map (docs : List JSON) :
    List (String × (String × String)) :=
  docs.foldl
    (fun acc data =>
      (bundle_entries data).foldl
        (fun a e => resource_identifier_step a (entry_resource_fields e)) acc)
    []

/-- Line 352: the dict merge with local precedence. -/
def merged_identifier_map (g l : List (String × (String × String))) :
    List (String × (String × String)) :=
  l.foldl (fun acc kv => updMap acc kv.1 kv.2) g

/-! ## add_coverage_resources (script lines 248-325) -/

/-- entry.get("resource", {}).get("resourceType") when it is a string
(a Python == comparison with a non-string is False either way). -/
def entry_resource_type (e : JSON) : Option String :=
  match lookupM (entry_resource_fields e) "resourceType" with
  | some (.str t) => some t
  | _ => none

/-- Lines 263-267: scan for the first Patient resource and take its id
(the loop breaks there; a missing id aborts exactly like a missing
Patient). -/
def first_patient_id : List JSON → Option JSON
  | [] => none
  | e :: es =>
    if entry_resource_type e == some "Patient" then
      lookupM (entry_resource_fields e) "id"
    else first_patient_id es

/-- Lines 286-305: the generated Coverage entry. -/
def coverage_entry_json (coverageId patientId organizationId : String) : JSON :=
  .obj [("fullUrl", .str ("urn:uuid:" ++ coverageId)),
        ("resource", .obj
          [("resourceType", .str "Coverage"),
           ("id", .str coverageId),
           ("status", .str "active"),
           ("beneficiary", .obj [("reference", .str ("Patient/" ++ patientId))]),
           ("payor", .arr [.obj [("reference", .str ("Organization/" ++ organizationId))]])]),
        ("request", .obj [("method", .str "POST"), ("url", .str "Coverage")])]

/-- Lines 311-318: overwrite the insurance field of the entry resource
in place. -/
def set_insurance (e : JSON) (coverageId : String) : JSON :=
  match e with
  | .obj efs =>
    match lookupM efs "resource" with
    | some (.obj rfs) =>
      .obj (updMap efs "resource" (.obj (updMap rfs "insurance"
        (.arr [.obj [("focal", .bool true),
                     ("coverage", .obj [("reference", .str ("Coverage/" ++ coverageId))])]]))))
    | _ => e
  | _ => e

/-- Lines 273-322: rebuild the entry list, inserting a Coverage entry
immediately before each ExplanationOfBenefit and wiring its id into that
resource.  gen models the uuid.uuid4() stream: the n-th generated id. -/
def add_entries (patientId organizationId : String) (gen : Nat → String) :
    Nat → List JSON → List JSON
  | _, [] => []
  | n, e :: es =>
    if entry_resource_type e == some "ExplanationOfBenefit" then
      coverage_entry_json (gen n) patientId organizationId ::
        set_insurance e (gen n) ::
          add_entries patientId organizationId gen (n + 1) es
    else e :: add_entries patientId organizationId gen n es

/-- add_coverage_resources (lines 248-325).  A non-dict document or a
non-list entry value raises in Python; both are modelled as the
unmodified document. -/
def add_coverage_resources (data : JSON) (organizationId : String)
    (gen : Nat → String) : JSON :=
  match data with
  | .obj dfs =>
    if rtIs dfs "Bundle" && hasKey dfs "entry" then
      match lookupM dfs "entry" with
      | some (.arr es) =>
        match first_patient_id es with
        | some pid =>
          if truthyJ pid then
            .obj (updMap dfs "entry"
              (.arr (add_entries (pyStr pid) organizationId gen 0 es)))
          else .obj dfs          -- line 269: falsy id, warning only
        | none => .obj dfs       -- line 269: no Patient, warning only
      | _ => .obj dfs
    else .obj dfs                -- line 259
  | j => j

/-- process_json_file (lines 328-365), pure part: build the maps, merge
with local precedence (the merge is skipped when the global map is
empty, line 351), inject Coverage entries, then rewrite references. -/
def process_document (data : JSON)
    (globalIdentifierMap : List (String × (String × String)))
    (organizationId practitionerId : String) (gen : Nat → String) :
    Option JSON :=
  let maps := build_uuid_to_resource_type_map data
  let identifierMap :=
    if globalIdentifierMap.isEmpty then maps.2
    else merged_identifier_map globalIdentifierMap maps.2
  let data1 := add_coverage_resources data organizationId gen
  replace_references
    ⟨maps.1, identifierMap, some organizationId, some practitionerId⟩ data1

/-! ## Shape predicates used in theorem statements -/

/-- Pairwise distinctness of a key list (Python dicts cannot hold a
duplicate key, so every object arising from parsed JSON satisfies
this). -/
def distinctKeys : List String → Bool
  | [] => true
  | k :: ks => !(memS ks k) && distinctKeys ks

mutual
/-- Well-formedness: every object in the tree has distinct keys, as is
the case for any tree obtained from Python json.load. -/
def wfJ : JSON → Bool
  | .obj fs => distinctKeys (keysF fs) && wfF fs
  | .arr xs => wfL xs
  | _ => true
/-- wfJ on every element. -/
def wfL : List JSON → Bool
  | [] => true
  | x :: xs => wfJ x && wfL xs
/-- wfJ on every field value. -/
def wfF : List (String × JSON) → Bool
  | [] => true
  | (_, v) :: fs => wfJ v && wfF fs
end

mutual
/-- No object anywhere in the tree has a field named period. -/
def periodFree : JSON → Bool
  | .obj fs => pfF fs
  | .arr xs => pfL xs
  | _ => true
/-- periodFree on every element. -/
def pfL : List JSON → Bool
  | [] => true
  | x :: xs => periodFree x && pfL xs
/-- No period key among the fields, and periodFree in every value. -/
def pfF : List (String × JSON) → Bool
  | [] => true
  | (k, v) :: fs => k != "period" && periodFree v && pfF fs
end

/-! ## Association-list lemmas -/

theorem lookupM_mem {α : Type} {fs : List (String × α)} {k : String} {v : α}
    (h : lookupM fs k = some v) : (k, v) ∈ fs := by
  induction fs with
  | nil => simp [lookupM] at h
  | cons kv rest ih =>
    obtain ⟨k0, v0⟩ := kv
    by_cases hk : k0 = k
    · subst hk
      simp [lookupM] at h
      subst h
      exact List.mem_cons_self _ _
    · simp [lookupM, hk] at h
      exact List.mem_cons_of_mem _ (ih h)

theorem memS_iff {ds : List String} {k : String} :
    memS ds k = true ↔ k ∈ ds := by
  induction ds with
  | nil => simp [memS]
  | cons d ds ih =>
    simp [memS, ih, Bool.or_eq_true, beq_iff_eq]
    constructor
    · rintro (h | h)
      · exact Or.inl h.symm
      · exact Or.inr h
    · rintro (h | h)
      · exact Or.inl h.symm
      · exact Or.inr h

theorem keysF_mem {α : Type} {fs : List (String × α)} {k : String} {v : α}
    (h : (k, v) ∈ fs) : k ∈ keysF fs := by
  simp only [keysF]
  exact List.mem_map_of_mem _ h

theorem lookupM_isSome_of_mem_keys {α : Type} {fs : List (String × α)}
    {k : String} (h : k ∈ keysF fs) : (lookupM fs k).isSome = true := by
  induction fs with
  | nil => simp [keysF] at h
  | cons kv rest ih =>
    obtain ⟨k0, v0⟩ := kv
    by_cases hk : k0 = k
    · simp [lookupM, hk]
    · simp [keysF] at h
      rcases h with h | h
      · exact absurd h.symm hk
      · simp only [lookupM, if_neg hk]
        exact ih (by simpa [keysF] using h)

theorem keys_of_lookupM_isSome {α : Type} {fs : List (String × α)}
    {k : String} (h : (lookupM fs k).isSome = true) : k ∈ keysF fs := by
  cases hv : lookupM fs k with
  | none => rw [hv] at h; simp at h
  | some v => exact keysF_mem (lookupM_mem hv)

theorem lookupM_eq_of_mem_distinct {α : Type} {fs : List (String × α)}
    {k : String} {v : α} (hd : distinctKeys (keysF fs) = true)
    (h : (k, v) ∈ fs) : lookupM fs k = some v := by
  induction fs with
  | nil => simp at h
  | cons kv rest ih =>
    obtain ⟨k0, v0⟩ := kv
    simp only [distinctKeys, keysF, List.map_cons, Bool.and_eq_true,
      Bool.not_eq_true'] at hd
    rcases List.mem_cons.mp h with h | h
    · obtain ⟨hk, hv⟩ := Prod.mk.injEq .. ▸ h
      simp [lookupM, hk.symm, hv]
    · have hk0 : k0 ≠ k := by
        intro he
        subst he
        have : k0 ∈ keysF rest := keysF_mem h
        rw [← memS_iff] at this
        simp [keysF] at this
        rw [this] at hd
        exact absurd hd.1 (by simp)
      simp only [lookupM, if_neg hk0]
      exact ih hd.2 h

theorem mem_updMap {α : Type} {fs : List (String × α)} {k k0 : String}
    {v w : α} (h : (k, v) ∈ updMap fs k0 w) :
    (k, v) ∈ fs ∨ (k = k0 ∧ v = w) := by
  induction fs with
  | nil =>
    simp only [updMap, List.mem_singleton, Prod.mk.injEq] at h
    exact Or.inr h
  | cons kv rest ih =>
    obtain ⟨k1, v1⟩ := kv
    by_cases hk : k1 = k0
    · subst hk
      simp only [updMap, if_pos rfl] at h
      rcases List.mem_cons.mp h with h | h
      · exact Or.inr ⟨congrArg Prod.fst h, congrArg Prod.snd h⟩
      · exact Or.inl (List.mem_cons_of_mem _ h)
    · simp only [updMap, if_neg hk, List.mem_cons] at h
      rcases h with h | h
      · exact Or.inl (List.mem_cons.mpr (Or.inl h))
      · rcases ih h with h | h
        · exact Or.inl (List.mem_cons_of_mem _ h)
        · exact Or.inr h

theorem lookupM_updMap_self {α : Type} (fs : List (String × α)) (k : String)
    (w : α) : lookupM (updMap fs k w) k = some w := by
  induction fs with
  | nil => simp [updMap, lookupM]
  | cons kv rest ih =>
    obtain ⟨k1, v1⟩ := kv
    by_cases hk : k1 = k
    · simp [updMap, hk, lookupM]
    · simp [updMap, hk, lookupM, ih]

theorem lookupM_updMap_ne {α : Type} (fs : List (String × α))
    {k k0 : String} (w : α) (h : k ≠ k0) :
    lookupM (updMap fs k0 w) k = lookupM fs k := by
  induction fs with
  | nil =>
    have h2 : ¬(k0 = k) := fun he => h he.symm
    simp [updMap, lookupM, h2]
  | cons kv rest ih =>
    obtain ⟨k1, v1⟩ := kv
    by_cases hk : k1 = k0
    · subst hk
      have h2 : ¬(k1 = k) := fun he => h he.symm
      simp [updMap, lookupM, h2]
    · simp only [updMap, if_neg hk]
      by_cases hk1 : k1 = k
      · simp [lookupM, hk1]
      · simp [lookupM, hk1, ih]

theorem keysF_updMap_of_has {α : Type} {fs : List (String × α)}
    {k : String} (w : α) (h : k ∈ keysF fs) :
    keysF (updMap fs k w) = keysF fs := by
  induction fs with
  | nil => simp [keysF] at h
  | cons kv rest ih =>
    obtain ⟨k1, v1⟩ := kv
    by_cases hk : k1 = k
    · simp [updMap, hk, keysF]
    · simp only [keysF, List.map_cons] at h ⊢
      rcases List.mem_cons.mp h with h | h
      · exact absurd h.symm hk
      · simp only [updMap, if_neg hk, List.map_cons]
        rw [show List.map Prod.fst (updMap rest k w) = keysF (updMap rest k w) from rfl,
          ih h]
        rfl

theorem mem_eraseKeysL {fs : List (String × JSON)} {dels : List String}
    {k : String} {v : JSON} :
    (k, v) ∈ eraseKeysL fs dels ↔ (k, v) ∈ fs ∧ memS dels k = false := by
  simp only [eraseKeysL, List.mem_filter, Bool.not_eq_true']

theorem lookupM_eraseKeysL {fs : List (String × JSON)} {dels : List String}
    {k : String} (h : memS dels k = false) :
    lookupM (eraseKeysL fs dels) k = lookupM fs k := by
  induction fs with
  | nil => simp [eraseKeysL, lookupM]
  | cons kv rest ih =>
    obtain ⟨k1, v1⟩ := kv
    by_cases hk : k1 = k
    · subst hk
      simp [eraseKeysL, lookupM, h]
    · by_cases hmem : memS dels k1
      · simp only [eraseKeysL, List.filter_cons, hmem]
        simpa [eraseKeysL, lookupM, hk] using ih
      · simp only [eraseKeysL, List.filter_cons, hmem]
        simp only [Bool.not_false, if_pos rfl, lookupM, if_neg hk]
        exact ih

theorem lookupM_append_left {α : Type} {fs gs : List (String × α)}
    {k : String} {v : α} (h : lookupM fs k = some v) :
    lookupM (fs ++ gs) k = some v := by
  induction fs with
  | nil => simp [lookupM] at h
  | cons kv rest ih =>
    obtain ⟨k1, v1⟩ := kv
    by_cases hk : k1 = k
    · simp only [lookupM, if_pos hk] at h ⊢
      exact h
    · simp only [lookupM, if_neg hk] at h ⊢
      exact ih h

theorem lookupM_append_right {α : Type} {fs gs : List (String × α)}
    {k : String} (h : k ∉ keysF fs) :
    lookupM (fs ++ gs) k = lookupM gs k := by
  induction fs with
  | nil => rfl
  | cons kv rest ih =>
    obtain ⟨k1, v1⟩ := kv
    simp only [keysF, List.map_cons, List.mem_cons] at h
    push_neg at h
    have h1 : ¬(k1 = k) := fun he => h.1 he.symm
    show lookupM ((k1, v1) :: (rest ++ gs)) k = lookupM gs k
    simp only [lookupM, if_neg h1]
    exact ih (by simpa [keysF] using h.2)

theorem lookupM_filter_keyfun {fs : List (String × JSON)}
    (p : String × JSON → Bool) {k : String}
    (hp : ∀ v, p (k, v) = true) :
    lookupM (fs.filter p) k = lookupM fs k := by
  induction fs with
  | nil => simp [lookupM]
  | cons kv rest ih =>
    obtain ⟨k1, v1⟩ := kv
    by_cases hk : k1 = k
    · subst hk
      simp [List.filter_cons, hp v1, lookupM]
    · by_cases hkeep : p (k1, v1)
      · simp only [List.filter_cons, hkeep, if_pos rfl, lookupM, if_neg hk]
        exact ih
      · rw [List.filter_cons]
        have hkeep2 : ¬(p (k1, v1) = true) := by simp [hkeep]
        rw [if_neg hkeep2, show lookupM ((k1, v1) :: rest) k = lookupM rest k
          from by simp [lookupM, hk]]
        exact ih

/-! ## Size lemmas (fuel accounting) -/

theorem jsize_pos (j : JSON) : 1 ≤ jsize j := by
  cases j <;> simp [jsize]

theorem jsizeF_filter_le (p : String × JSON → Bool)
    (fs : List (String × JSON)) : jsizeF (fs.filter p) ≤ jsizeF fs := by
  induction fs with
  | nil => simp [jsizeF]
  | cons kv rest ih =>
    obtain ⟨k1, v1⟩ := kv
    rw [List.filter_cons]
    by_cases hp : p (k1, v1) = true
    · rw [if_pos hp]
      simp only [jsizeF]
      omega
    · rw [if_neg hp]
      simp only [jsizeF]
      omega

theorem jsizeF_updMap_str {fs : List (String × JSON)} {k s : String}
    (t : String) (h : lookupM fs k = some (.str s)) :
    jsizeF (updMap fs k (.str t)) = jsizeF fs := by
  induction fs with
  | nil => simp [lookupM] at h
  | cons kv rest ih =>
    obtain ⟨k1, v1⟩ := kv
    by_cases hk : k1 = k
    · simp only [lookupM, if_pos hk] at h
      obtain rfl : v1 = .str s := Option.some.inj h
      simp [updMap, hk, jsizeF, jsize]
    · simp only [lookupM, if_neg hk] at h
      simp only [updMap, if_neg hk, jsizeF]
      rw [ih h]

theorem ref_step_size {ctx : Ctx} {fs fs1 : List (String × JSON)}
    (h : ref_step ctx fs = some fs1) : jsizeF fs1 ≤ jsizeF fs := by
  unfold ref_step at h
  cases hl : lookupM fs "reference" with
  | none =>
    rw [hl] at h
    dsimp only at h
    exact (Option.some.inj h) ▸ le_refl _
  | some v =>
    rw [hl] at h
    cases v with
    | str s =>
      dsimp only at h
      cases hr : refResolveStr ctx s with
      | none => rw [hr] at h; exact absurd h (by simp)
      | some t =>
        rw [hr] at h
        obtain rfl := Option.some.inj h
        exact (jsizeF_updMap_str t hl).le
    | null => dsimp only at h; exact (Option.some.inj h) ▸ le_refl _
    | bool b => dsimp only at h; exact (Option.some.inj h) ▸ le_refl _
    | num n => dsimp only at h; exact (Option.some.inj h) ▸ le_refl _
    | arr xs => dsimp only at h; exact (Option.some.inj h) ▸ le_refl _
    | obj gs => dsimp only at h; exact (Option.some.inj h) ▸ le_refl _

theorem jsizeL_strip_le (xs : List JSON) :
    jsizeL (strip_dosage_items xs) ≤ jsizeL xs := by
  induction xs with
  | nil => simp [strip_dosage_items]
  | cons x rest ih =>
    cases x with
    | obj g =>
      simp only [strip_dosage_items, jsizeL, jsize]
      have := jsizeF_filter_le (fun kv => kv.1 != "additionalInstruction") g
      omega
    | null => simp only [strip_dosage_items, jsizeL]; omega
    | bool b => simp only [strip_dosage_items, jsizeL]; omega
    | num n => simp only [strip_dosage_items, jsizeL]; omega
    | str s => simp only [strip_dosage_items, jsizeL]; omega
    | arr ys => simp only [strip_dosage_items, jsizeL]; omega

theorem jsize_dosage_le (m : Bool) (k : String) (v : JSON) :
    jsize (dosage_step m k v) ≤ jsize v := by
  cases v with
  | arr xs =>
    simp only [dosage_step]
    by_cases hc : (m && k == "dosageInstruction") = true
    · rw [if_pos hc]
      simp only [jsize]
      have := jsizeL_strip_le xs
      omega
    · rw [if_neg hc]
  | null => simp [dosage_step]
  | bool b => simp [dosage_step]
  | num n => simp [dosage_step]
  | str s => simp [dosage_step]
  | obj fs => simp [dosage_step]

/-! ## Fuel sufficiency and monotonicity -/

theorem fuel_sufficient :
    ∀ f,
      (∀ ctx e p c j, 2 * jsize j ≤ f →
        (goF f ctx e p c j).isSome = true) ∧
      (∀ ctx e p c xs, 2 * jsizeL xs + 1 ≤ f →
        (goLF f ctx e p c xs).isSome = true) ∧
      (∀ ctx io ic im pending cur dels, 2 * jsizeF pending + 1 ≤ f →
        (goEF f ctx io ic im pending cur dels).isSome = true) := by
  intro f
  induction f with
  | zero =>
    refine ⟨fun ctx e p c j hj => ?_, fun ctx e p c xs hx => ?_,
      fun ctx io ic im pending cur dels hp => ?_⟩
    · have := jsize_pos j; omega
    · omega
    · omega
  | succ f ih =>
    obtain ⟨ihJ, ihL, ihE⟩ := ih
    refine ⟨fun ctx e p c j hj => ?_, fun ctx e p c xs hx => ?_,
      fun ctx io ic im pending cur dels hp => ?_⟩
    · cases j with
      | obj fs =>
        cases href : ref_step ctx fs with
        | none => simp [goF, href]
        | some fs1 =>
          have hsz : jsizeF fs1 ≤ jsizeF fs := ref_step_size href
          have hszF : jsizeF
              (if c && hasKey fs1 "reference" then
                fs1.filter (fun kv => kv.1 == "reference" || kv.1 == "display")
              else fs1) ≤ jsizeF fs1 := by
            by_cases hc : (c && hasKey fs1 "reference") = true
            · rw [if_pos hc]; exact jsizeF_filter_le _ _
            · rw [if_neg hc]
          have hfuel : 2 * jsizeF
              (if c && hasKey fs1 "reference" then
                fs1.filter (fun kv => kv.1 == "reference" || kv.1 == "display")
              else fs1) + 1 ≤ f := by
            simp only [jsize] at hj
            omega
          have hE := ihE ctx (rtIs fs "Observation") (rtIs fs "CarePlan")
            (rtIs fs "MedicationRequest")
            (if c && hasKey fs1 "reference" then
              fs1.filter (fun kv => kv.1 == "reference" || kv.1 == "display")
            else fs1)
            (if c && hasKey fs1 "reference" then
              fs1.filter (fun kv => kv.1 == "reference" || kv.1 == "display")
            else fs1) [] hfuel
          cases hEe : goEF f ctx (rtIs fs "Observation") (rtIs fs "CarePlan")
            (rtIs fs "MedicationRequest")
            (if c && hasKey fs1 "reference" then
              fs1.filter (fun kv => kv.1 == "reference" || kv.1 == "display")
            else fs1)
            (if c && hasKey fs1 "reference" then
              fs1.filter (fun kv => kv.1 == "reference" || kv.1 == "display")
            else fs1) [] with
          | none => rw [hEe] at hE; simp at hE
          | some pr =>
            obtain ⟨curF, delsF⟩ := pr
            simp only [goF, href, hEe]
            simp
      | arr xs =>
        simp only [goF]
        have hfuel : 2 * jsizeL xs + 1 ≤ f := by
          simp only [jsize] at hj
          omega
        have := ihL ctx e p c xs hfuel
        cases hL : goLF f ctx e p c xs with
        | none => rw [hL] at this; simp at this
        | some ys => simp
      | null => simp [goF]
      | bool b => simp [goF]
      | num n => simp [goF]
      | str s => simp [goF]
    · cases xs with
      | nil => simp [goLF]
      | cons x rest =>
        simp only [goLF]
        have hx1 : 2 * jsize x ≤ f := by
          simp only [jsizeL] at hx
          omega
        have hrest : 2 * jsizeL rest + 1 ≤ f := by
          simp only [jsizeL] at hx
          have := jsize_pos x
          omega
        have hj := ihJ ctx e p c x hx1
        cases hJ : goF f ctx e p c x with
        | none => rw [hJ] at hj; simp at hj
        | some r =>
          cases r with
          | none => exact ihL ctx e p c rest hrest
          | some rv =>
            have hl := ihL ctx e p c rest hrest
            cases hL : goLF f ctx e p c rest with
            | none => rw [hL] at hl; simp at hl
            | some ys => simp
    · cases pending with
      | nil => simp [goEF]
      | cons kv rest =>
        obtain ⟨k, v⟩ := kv
        have hv1 : jsize (dosage_step im k v) ≤ jsize v := jsize_dosage_le im k v
        have hx1 : 2 * jsize (dosage_step im k v) ≤ f := by
          simp only [jsizeF] at hp
          omega
        have hrest : 2 * jsizeF rest + 1 ≤ f := by
          simp only [jsizeF] at hp
          have := jsize_pos v
          omega
        simp only [goEF]
        by_cases h1 : (k == "period") = true
        · rw [if_pos h1]
          exact ihE ctx io ic im rest cur (dels ++ [k]) hrest
        · rw [if_neg h1]
          by_cases h2 : (io && k == "valueCodeableConcept") = true
          · rw [if_pos h2]
            exact ihE ctx io ic im rest cur (dels ++ [k]) hrest
          · rw [if_neg h2]
            split
            case _ hJ =>
              have hj := ihJ ctx
                (k == "careTeam" && isArrB (dosage_step im k v) &&
                  rtIs cur "ExplanationOfBenefit")
                (k == "agent" && isArrB (dosage_step im k v) &&
                  rtIs cur "Provenance")
                (k == "careTeam" && isArrB (dosage_step im k v) && ic)
                (dosage_step im k v) hx1
              rw [hJ] at hj
              simp at hj
            case _ hJ =>
              exact ihE ctx io ic im rest (updMap cur k (dosage_step im k v))
                (dels ++ [k]) hrest
            case _ rv hJ =>
              exact ihE ctx io ic im rest (updMap cur k rv) dels hrest

theorem fuel_mono :
    ∀ f,
      (∀ ctx e p c j res, goF f ctx e p c j = some res →
        goF (f + 1) ctx e p c j = some res) ∧
      (∀ ctx e p c xs res, goLF f ctx e p c xs = some res →
        goLF (f + 1) ctx e p c xs = some res) ∧
      (∀ ctx io ic im pending cur dels res,
        goEF f ctx io ic im pending cur dels = some res →
        goEF (f + 1) ctx io ic im pending cur dels = some res) := by
  intro f
  induction f with
  | zero =>
    refine ⟨fun ctx e p c j res h => ?_, fun ctx e p c xs res h => ?_,
      fun ctx io ic im pending cur dels res h => ?_⟩ <;>
      simp [goF, goLF, goEF] at h
  | succ f ih =>
    obtain ⟨ihJ, ihL, ihE⟩ := ih
    refine ⟨fun ctx e p c j res h => ?_, fun ctx e p c xs res h => ?_,
      fun ctx io ic im pending cur dels res h => ?_⟩
    · cases j with
      | obj fs =>
        rw [goF] at h ⊢
        dsimp only at h ⊢
        split at h
        case _ fsx heq =>
          exact h
        case _ fsx fs1 heq =>
          split at h
          all_goals try (rename_i hE; rw [ihE _ _ _ _ _ _ _ _ hE]; exact h)
          all_goals exact absurd h (by simp)
      | arr xs =>
        rw [goF] at h ⊢
        split at h
        case _ hL => exact absurd h (by simp)
        case _ ys hL =>
          rw [ihL _ _ _ _ _ _ hL]
          exact h
      | null => exact h
      | bool b => exact h
      | num n => exact h
      | str s => exact h
    · cases xs with
      | nil => exact h
      | cons x rest =>
        rw [goLF] at h ⊢
        split at h
        case _ hJ => exact absurd h (by simp)
        case _ hJ =>
          rw [ihJ _ _ _ _ _ _ hJ]
          dsimp only
          exact ihL _ _ _ _ _ _ h
        case _ rv hJ =>
          rw [ihJ _ _ _ _ _ _ hJ]
          dsimp only
          split at h
          case _ hL => exact absurd h (by simp)
          case _ ys hL =>
            rw [ihL _ _ _ _ _ _ hL]
            exact h
    · cases pending with
      | nil => exact h
      | cons kv rest =>
        obtain ⟨k, v⟩ := kv
        rw [goEF] at h ⊢
        dsimp only at h ⊢
        by_cases h1 : (k == "period") = true
        · rw [if_pos h1] at h ⊢
          exact ihE _ _ _ _ _ _ _ _ h
        · rw [if_neg h1] at h ⊢
          by_cases h2 : (io && k == "valueCodeableConcept") = true
          · rw [if_pos h2] at h ⊢
            exact ihE _ _ _ _ _ _ _ _ h
          · rw [if_neg h2] at h ⊢
            split at h
            case _ hJ => exact absurd h (by simp)
            case _ hJ =>
              rw [ihJ _ _ _ _ _ _ hJ]
              dsimp only
              exact ihE _ _ _ _ _ _ _ _ h
            case _ rv hJ =>
              rw [ihJ _ _ _ _ _ _ hJ]
              dsimp only
              exact ihE _ _ _ _ _ _ _ _ h

theorem goF_mono {f g : Nat} (hfg : f ≤ g) {ctx : Ctx} {e p c : Bool}
    {j : JSON} {res : Option JSON} (h : goF f ctx e p c j = some res) :
    goF g ctx e p c j = some res := by
  induction g with
  | zero =>
    obtain rfl : f = 0 := Nat.le_zero.mp hfg
    exact h
  | succ g ih =>
    rcases Nat.lt_or_ge f (g + 1) with hlt | hge
    · exact (fuel_mono g).1 _ _ _ _ _ _ (ih (Nat.lt_succ_iff.mp hlt))
    · obtain rfl : f = g + 1 := Nat.le_antisymm hfg hge
      exact h

theorem goLF_mono {f g : Nat} (hfg : f ≤ g) {ctx : Ctx} {e p c : Bool}
    {xs : List JSON} {res : List JSON} (h : goLF f ctx e p c xs = some res) :
    goLF g ctx e p c xs = some res := by
  induction g with
  | zero =>
    obtain rfl : f = 0 := Nat.le_zero.mp hfg
    exact h
  | succ g ih =>
    rcases Nat.lt_or_ge f (g + 1) with hlt | hge
    · exact (fuel_mono g).2.1 _ _ _ _ _ _ (ih (Nat.lt_succ_iff.mp hlt))
    · obtain rfl : f = g + 1 := Nat.le_antisymm hfg hge
      exact h

theorem goEF_mono {f g : Nat} (hfg : f ≤ g) {ctx : Ctx} {io ic im : Bool}
    {pending cur : List (String × JSON)} {dels : List String}
    {res : List (String × JSON) × List String}
    (h : goEF f ctx io ic im pending cur dels = some res) :
    goEF g ctx io ic im pending cur dels = some res := by
  induction g with
  | zero =>
    obtain rfl : f = 0 := Nat.le_zero.mp hfg
    exact h
  | succ g ih =>
    rcases Nat.lt_or_ge f (g + 1) with hlt | hge
    · exact (fuel_mono g).2.2 _ _ _ _ _ _ _ _ (ih (Nat.lt_succ_iff.mp hlt))
    · obtain rfl : f = g + 1 := Nat.le_antisymm hfg hge
      exact h

/-! ## Fuel-free unfolding equations for the wrappers -/

theorem goF_eq_go {f : Nat} {ctx : Ctx} {e p c : Bool} {j : JSON}
    (hf : 2 * jsize j ≤ f) : goF f ctx e p c j = some (go ctx e p c j) := by
  have hs := (fuel_sufficient (2 * jsize j)).1 ctx e p c j (le_refl _)
  cases hres : goF (2 * jsize j) ctx e p c j with
  | none => rw [hres] at hs; simp at hs
  | some res =>
    have : go ctx e p c j = res := by
      unfold go
      rw [hres]
      rfl
    rw [this]
    exact goF_mono hf hres

theorem goLF_eq_goListW {f : Nat} {ctx : Ctx} {e p c : Bool} {xs : List JSON}
    (hf : 2 * jsizeL xs + 1 ≤ f) :
    goLF f ctx e p c xs = some (goListW ctx e p c xs) := by
  have hs := (fuel_sufficient (2 * jsizeL xs + 1)).2.1 ctx e p c xs (le_refl _)
  cases hres : goLF (2 * jsizeL xs + 1) ctx e p c xs with
  | none => rw [hres] at hs; simp at hs
  | some res =>
    have : goListW ctx e p c xs = res := by
      unfold goListW
      rw [hres]
      rfl
    rw [this]
    exact goLF_mono hf hres

theorem goEF_eq_goEntriesW {f : Nat} {ctx : Ctx} {io ic im : Bool}
    {pending cur : List (String × JSON)} {dels : List String}
    (hf : 2 * jsizeF pending + 1 ≤ f) :
    goEF f ctx io ic im pending cur dels =
      some (goEntriesW ctx io ic im pending cur dels) := by
  have hs := (fuel_sufficient (2 * jsizeF pending + 1)).2.2 ctx io ic im
    pending cur dels (le_refl _)
  cases hres : goEF (2 * jsizeF pending + 1) ctx io ic im pending cur dels with
  | none => rw [hres] at hs; simp at hs
  | some res =>
    have : goEntriesW ctx io ic im pending cur dels = res := by
      unfold goEntriesW
      rw [hres]
      rfl
    rw [this]
    exact goEF_mono hf hres

/-- Lines 169-178 as a field-list transformation: the CarePlan.careTeam
filter, applied when the careplan flag is set and a reference key is
present. -/
def phaseF (c : Bool) (fs1 : List (String × JSON)) : List (String × JSON) :=
  if c && hasKey fs1 "reference" then
    fs1.filter (fun kv => kv.1 == "reference" || kv.1 == "display")
  else fs1

/-- The provider field contributed by lines 162-167 after the snapshot
loop has processed it: present when injected (flag set, truthy org id,
no provider key), not deleted by the careTeam filter, and kept by the
reference walk on the injected object. -/
def provF (ctx : Ctx) (e c : Bool) (fs1 : List (String × JSON)) :
    List (String × JSON) :=
  if e && truthyS ctx.organizationId && !hasKey fs1 "provider" &&
      !(c && hasKey fs1 "reference") then
    match goInjected ctx ("Organization/" ++ orgIdStr ctx) with
    | some r => [("provider", r)]
    | none => []
  else []

/-- The who field contributed by lines 180-185, symmetric to provF (the
presence test runs after the careTeam filter). -/
def whoF (ctx : Ctx) (p c : Bool) (fs1 : List (String × JSON)) :
    List (String × JSON) :=
  if p && truthyS ctx.practitionerId && !hasKey (phaseF c fs1) "who" then
    match goInjected ctx ("Practitioner/" ++ practIdStr ctx) with
    | some r => [("who", r)]
    | none => []
  else []

/-- The object step of replace_references, fuel-free: the statement of
go_obj below shows that go computes this on object nodes. -/
def goObjStep (ctx : Ctx) (e p c : Bool) (fs : List (String × JSON)) :
    Option JSON :=
  match ref_step ctx fs with
  | none => none
  | some fs1 =>
    let pr := goEntriesW ctx (rtIs fs "Observation") (rtIs fs "CarePlan")
      (rtIs fs "MedicationRequest") (phaseF c fs1) (phaseF c fs1) []
    some (.obj (eraseKeysL pr.1 pr.2 ++ provF ctx e c fs1 ++ whoF ctx p c fs1))

theorem go_obj (ctx : Ctx) (e p c : Bool) (fs : List (String × JSON)) :
    go ctx e p c (.obj fs) = goObjStep ctx e p c fs := by
  unfold go goObjStep phaseF provF whoF
  have hsz : 2 * jsize (.obj fs) = (2 * jsizeF fs + 1) + 1 := by
    simp [jsize]
    ring
  rw [hsz, goF]
  cases href : ref_step ctx fs with
  | none => rfl
  | some fs1 =>
    have hsz1 : jsizeF fs1 ≤ jsizeF fs := ref_step_size href
    dsimp only
    have hszF : jsizeF
        (if c && hasKey fs1 "reference" then
          fs1.filter (fun kv => kv.1 == "reference" || kv.1 == "display")
        else fs1) ≤ jsizeF fs1 := by
      by_cases hc : (c && hasKey fs1 "reference") = true
      · rw [if_pos hc]; exact jsizeF_filter_le _ _
      · rw [if_neg hc]
    rw [goEF_eq_goEntriesW (by omega)]
    rcases hpr : goEntriesW ctx (rtIs fs "Observation") (rtIs fs "CarePlan")
      (rtIs fs "MedicationRequest")
      (if c && hasKey fs1 "reference" then
        fs1.filter (fun kv => kv.1 == "reference" || kv.1 == "display")
      else fs1)
      (if c && hasKey fs1 "reference" then
        fs1.filter (fun kv => kv.1 == "reference" || kv.1 == "display")
      else fs1) [] with ⟨curF, delsF⟩
    rfl

theorem go_null (ctx : Ctx) (e p c : Bool) : go ctx e p c .null = some .null := rfl

theorem go_bool (ctx : Ctx) (e p c : Bool) (b : Bool) :
    go ctx e p c (.bool b) = some (.bool b) := rfl

theorem go_num (ctx : Ctx) (e p c : Bool) (n : Int) :
    go ctx e p c (.num n) = some (.num n) := rfl

theorem go_str (ctx : Ctx) (e p c : Bool) (s : String) :
    go ctx e p c (.str s) = some (.str s) := rfl

theorem go_arr (ctx : Ctx) (e p c : Bool) (xs : List JSON) :
    go ctx e p c (.arr xs) = some (.arr (goListW ctx e p c xs)) := by
  unfold go
  have hsz : 2 * jsize (.arr xs) = (2 * jsizeL xs + 1) + 1 := by
    simp [jsize]
    ring
  rw [hsz, goF, goLF_eq_goListW (le_refl _)]
  rfl

theorem goListW_nil (ctx : Ctx) (e p c : Bool) : goListW ctx e p c [] = [] := rfl

theorem goListW_cons (ctx : Ctx) (e p c : Bool) (x : JSON) (xs : List JSON) :
    goListW ctx e p c (x :: xs) =
      match go ctx e p c x with
      | none => goListW ctx e p c xs
      | some r => r :: goListW ctx e p c xs := by
  unfold goListW
  have hsz : 2 * jsizeL (x :: xs) + 1 = (2 * jsize x + 2 * jsizeL xs) + 1 := by
    simp [jsizeL]
    ring
  rw [hsz, goLF]
  have h1 := jsize_pos x
  rw [goF_eq_go (by omega)]
  cases go ctx e p c x with
  | none =>
    dsimp only
    rw [goLF_eq_goListW (by omega)]
    rfl
  | some r =>
    dsimp only
    rw [goLF_eq_goListW (by omega)]
    rfl

theorem goE_nil (ctx : Ctx) (io ic im : Bool) (cur : List (String × JSON))
    (dels : List String) : goEntriesW ctx io ic im [] cur dels = (cur, dels) := rfl

theorem goE_cons (ctx : Ctx) (io ic im : Bool) (k : String) (v : JSON)
    (rest cur : List (String × JSON)) (dels : List String) :
    goEntriesW ctx io ic im ((k, v) :: rest) cur dels =
      if k == "period" then goEntriesW ctx io ic im rest cur (dels ++ [k])
      else if io && k == "valueCodeableConcept" then
        goEntriesW ctx io ic im rest cur (dels ++ [k])
      else
        match go ctx
            (k == "careTeam" && isArrB (dosage_step im k v) &&
              rtIs cur "ExplanationOfBenefit")
            (k == "agent" && isArrB (dosage_step im k v) && rtIs cur "Provenance")
            (k == "careTeam" && isArrB (dosage_step im k v) && ic)
            (dosage_step im k v) with
        | none =>
          goEntriesW ctx io ic im rest (updMap cur k (dosage_step im k v))
            (dels ++ [k])
        | some r => goEntriesW ctx io ic im rest (updMap cur k r) dels := by
  unfold goEntriesW
  have hsz : 2 * jsizeF ((k, v) :: rest) + 1 =
      (2 * jsize v + 2 * jsizeF rest) + 1 := by
    simp [jsizeF]
    ring
  rw [hsz, goEF]
  have h1 := jsize_pos v
  have h2 := jsize_dosage_le im k v
  by_cases hk : (k == "period") = true
  · rw [if_pos hk, if_pos hk, goEF_eq_goEntriesW (by omega)]
    rfl
  · rw [if_neg hk, if_neg hk]
    by_cases hv : (io && k == "valueCodeableConcept") = true
    · rw [if_pos hv, if_pos hv, goEF_eq_goEntriesW (by omega)]
      rfl
    · rw [if_neg hv, if_neg hv]
      dsimp only
      rw [goF_eq_go (by omega)]
      cases go ctx
          (k == "careTeam" && isArrB (dosage_step im k v) &&
            rtIs cur "ExplanationOfBenefit")
          (k == "agent" && isArrB (dosage_step im k v) && rtIs cur "Provenance")
          (k == "careTeam" && isArrB (dosage_step im k v) && ic)
          (dosage_step im k v) with
      | none =>
        dsimp only
        rw [goEF_eq_goEntriesW (by omega)]
        rfl
      | some r =>
        dsimp only
        rw [goEF_eq_goEntriesW (by omega)]
        rfl

/-! ## Distinct-key and deletion-list lemmas -/

theorem memS_append_single {ds : List String} {k0 k : String} :
    memS (ds ++ [k0]) k = (memS ds k || (k0 == k)) := by
  induction ds with
  | nil => simp [memS]
  | cons d ds ih => simp [memS, ih, Bool.or_assoc]

theorem distinctKeys_iff_nodup {ks : List String} :
    distinctKeys ks = true ↔ ks.Nodup := by
  induction ks with
  | nil => simp [distinctKeys]
  | cons k ks ih =>
    simp only [distinctKeys, Bool.and_eq_true, Bool.not_eq_true',
      List.nodup_cons, ih]
    constructor
    · rintro ⟨h1, h2⟩
      refine ⟨fun hmem => ?_, h2⟩
      rw [← memS_iff] at hmem
      rw [hmem] at h1
      exact absurd h1 (by simp)
    · rintro ⟨h1, h2⟩
      refine ⟨?_, h2⟩
      cases hm : memS ks k with
      | false => rfl
      | true => exact absurd (memS_iff.mp hm) h1

theorem mem_updMap_self_distinct {cur : List (String × JSON)} {k0 : String}
    {v r : JSON} (hd : distinctKeys (keysF cur) = true)
    (hk : k0 ∈ keysF cur) (h : (k0, v) ∈ updMap cur k0 r) : v = r := by
  induction cur with
  | nil => simp [keysF] at hk
  | cons kv rest ih =>
    obtain ⟨k1, w⟩ := kv
    simp only [distinctKeys, keysF, List.map_cons, Bool.and_eq_true,
      Bool.not_eq_true'] at hd
    by_cases hk1 : k1 = k0
    · subst hk1
      simp only [updMap, if_pos rfl] at h
      rcases List.mem_cons.mp h with h | h
      · exact congrArg Prod.snd h
      · exfalso
        have h3 : k1 ∈ keysF rest := keysF_mem h
        rw [← memS_iff] at h3
        have h4 : memS (List.map Prod.fst rest) k1 = true := by
          simpa [keysF] using h3
        rw [h4] at hd
        simp at hd
    · simp only [updMap, if_neg hk1] at h
      rcases List.mem_cons.mp h with h | h
      · exact absurd (congrArg Prod.fst h).symm hk1
      · simp only [keysF, List.map_cons, List.mem_cons] at hk
        rcases hk with hk | hk
        · exact absurd hk.symm hk1
        · exact ih hd.2 (by simpa [keysF] using hk) h

/-! ## ref_step facts -/

theorem ref_step_keys {ctx : Ctx} {fs fs1 : List (String × JSON)}
    (h : ref_step ctx fs = some fs1) : keysF fs1 = keysF fs := by
  unfold ref_step at h
  cases hl : lookupM fs "reference" with
  | none =>
    rw [hl] at h
    dsimp only at h
    rw [← Option.some.inj h]
  | some v =>
    rw [hl] at h
    cases v with
    | str s =>
      dsimp only at h
      cases hr : refResolveStr ctx s with
      | none => rw [hr] at h; exact absurd h (by simp)
      | some t =>
        rw [hr] at h
        rw [← Option.some.inj h]
        exact keysF_updMap_of_has _ (keys_of_lookupM_isSome (by simp [hl]))
    | null => dsimp only at h; rw [← Option.some.inj h]
    | bool b => dsimp only at h; rw [← Option.some.inj h]
    | num n => dsimp only at h; rw [← Option.some.inj h]
    | arr xs => dsimp only at h; rw [← Option.some.inj h]
    | obj gs => dsimp only at h; rw [← Option.some.inj h]

theorem ref_step_of_str {ctx : Ctx} {fs : List (String × JSON)} {s : String}
    (hl : lookupM fs "reference" = some (.str s)) :
    ref_step ctx fs =
      match refResolveStr ctx s with
      | none => none
      | some t => some (updMap fs "reference" (.str t)) := by
  unfold ref_step
  rw [hl]

theorem ref_step_of_none {ctx : Ctx} {fs : List (String × JSON)}
    (hl : lookupM fs "reference" = none) : ref_step ctx fs = some fs := by
  unfold ref_step
  rw [hl]

/-! ## Invariants of the snapshot loop -/

theorem goEW_keys (ctx : Ctx) (io ic im : Bool) :
    ∀ (pending cur : List (String × JSON)) (dels : List String),
      (∀ k, k ∈ keysF pending → k ∈ keysF cur) →
      keysF (goEntriesW ctx io ic im pending cur dels).1 = keysF cur := by
  intro pending
  induction pending with
  | nil => intro cur dels _; rw [goE_nil]
  | cons kv rest ih =>
    intro cur dels hsub
    obtain ⟨k0, v0⟩ := kv
    have hk0 : k0 ∈ keysF cur := hsub k0 (by simp [keysF])
    have hsub' : ∀ k, k ∈ keysF rest → k ∈ keysF cur := fun k hk =>
      hsub k (by simp [keysF] at hk ⊢; exact Or.inr hk)
    rw [goE_cons]
    by_cases h1 : (k0 == "period") = true
    · rw [if_pos h1]
      exact ih cur (dels ++ [k0]) hsub'
    · rw [if_neg h1]
      by_cases h2 : (io && k0 == "valueCodeableConcept") = true
      · rw [if_pos h2]
        exact ih cur (dels ++ [k0]) hsub'
      · rw [if_neg h2]
        cases go ctx
            (k0 == "careTeam" && isArrB (dosage_step im k0 v0) &&
              rtIs cur "ExplanationOfBenefit")
            (k0 == "agent" && isArrB (dosage_step im k0 v0) && rtIs cur "Provenance")
            (k0 == "careTeam" && isArrB (dosage_step im k0 v0) && ic)
            (dosage_step im k0 v0) with
        | none =>
          dsimp only
          rw [ih (updMap cur k0 (dosage_step im k0 v0)) (dels ++ [k0])
            (fun k hk => by rw [keysF_updMap_of_has _ hk0]; exact hsub' k hk)]
          exact keysF_updMap_of_has _ hk0
        | some r =>
          dsimp only
          rw [ih (updMap cur k0 r) dels
            (fun k hk => by rw [keysF_updMap_of_has _ hk0]; exact hsub' k hk)]
          exact keysF_updMap_of_has _ hk0

theorem goEW_dels (ctx : Ctx) (io ic im : Bool) :
    ∀ (pending cur : List (String × JSON)) (dels : List String) (k : String),
      memS (goEntriesW ctx io ic im pending cur dels).2 k = true →
      memS dels k = true ∨
        ∃ v, (k, v) ∈ pending ∧
          ((k == "period") = true ∨ (io && k == "valueCodeableConcept") = true ∨
            ∃ e2 p2 c2, go ctx e2 p2 c2 (dosage_step im k v) = none) := by
  intro pending
  induction pending with
  | nil =>
    intro cur dels k h
    rw [goE_nil] at h
    exact Or.inl h
  | cons kv rest ih =>
    intro cur dels k h
    obtain ⟨k0, v0⟩ := kv
    rw [goE_cons] at h
    have hstep : ∀ dels2,
        memS (goEntriesW ctx io ic im rest cur dels2).2 k = true →
        memS dels2 k = true ∨ _ := fun dels2 => ih cur dels2 k
    by_cases h1 : (k0 == "period") = true
    · rw [if_pos h1] at h
      rcases ih cur (dels ++ [k0]) k h with hd | ⟨v, hv, hc⟩
      · rw [memS_append_single] at hd
        rcases Bool.or_eq_true_iff.mp hd with hd | hd
        · exact Or.inl hd
        · refine Or.inr ⟨v0, by simp [(beq_iff_eq.mp hd).symm], Or.inl ?_⟩
          rw [show k = k0 from (beq_iff_eq.mp hd).symm]
          exact h1
      · exact Or.inr ⟨v, List.mem_cons_of_mem _ hv, hc⟩
    · rw [if_neg h1] at h
      by_cases h2 : (io && k0 == "valueCodeableConcept") = true
      · rw [if_pos h2] at h
        rcases ih cur (dels ++ [k0]) k h with hd | ⟨v, hv, hc⟩
        · rw [memS_append_single] at hd
          rcases Bool.or_eq_true_iff.mp hd with hd | hd
          · exact Or.inl hd
          · refine Or.inr ⟨v0, by simp [(beq_iff_eq.mp hd).symm], Or.inr (Or.inl ?_)⟩
            rw [show k = k0 from (beq_iff_eq.mp hd).symm]
            exact h2
        · exact Or.inr ⟨v, List.mem_cons_of_mem _ hv, hc⟩
      · rw [if_neg h2] at h
        cases hgo : go ctx
            (k0 == "careTeam" && isArrB (dosage_step im k0 v0) &&
              rtIs cur "ExplanationOfBenefit")
            (k0 == "agent" && isArrB (dosage_step im k0 v0) && rtIs cur "Provenance")
            (k0 == "careTeam" && isArrB (dosage_step im k0 v0) && ic)
            (dosage_step im k0 v0) with
        | none =>
          rw [hgo] at h
          dsimp only at h
          rcases ih _ (dels ++ [k0]) k h with hd | ⟨v, hv, hc⟩
          · rw [memS_append_single] at hd
            rcases Bool.or_eq_true_iff.mp hd with hd | hd
            · exact Or.inl hd
            · have hkk0 : k = k0 := (beq_iff_eq.mp hd).symm
              subst hkk0
              exact Or.inr ⟨v0, by simp, Or.inr (Or.inr ⟨_, _, _, hgo⟩)⟩
          · exact Or.inr ⟨v, List.mem_cons_of_mem _ hv, hc⟩
        | some r =>
          rw [hgo] at h
          dsimp only at h
          rcases ih _ dels k h with hd | ⟨v, hv, hc⟩
          · exact Or.inl hd
          · exact Or.inr ⟨v, List.mem_cons_of_mem _ hv, hc⟩

/-- The master invariant of the snapshot loop: if every pending entry,
once processed by the walk, satisfies a property Good of its key and new
value, and every already-final entry of cur does too, then every
surviving field of the loop result satisfies Good. -/
theorem goEW_inv (ctx : Ctx) (io ic im : Bool) (Good : String → JSON → Prop) :
    ∀ (pending cur : List (String × JSON)) (dels : List String),
      (∀ k v, (k, v) ∈ pending → (k == "period") = false →
        (io && k == "valueCodeableConcept") = false →
        ∀ e2 p2 c2 r,
          (e2 = true → (k == "careTeam") = true) →
          (p2 = true → (k == "agent") = true) →
          (c2 = true → (k == "careTeam") = true) →
          go ctx e2 p2 c2 (dosage_step im k v) = some r → Good k r) →
      distinctKeys (keysF cur) = true →
      (∀ k, k ∈ keysF pending → k ∈ keysF cur) →
      (∀ k v, (k, v) ∈ cur → memS dels k = false →
        k ∈ keysF pending ∨ Good k v) →
      ∀ k v, (k, v) ∈ (goEntriesW ctx io ic im pending cur dels).1 →
        memS (goEntriesW ctx io ic im pending cur dels).2 k = false → Good k v := by
  intro pending
  induction pending with
  | nil =>
    intro cur dels _ _ _ hcur k v hmem hdel
    rw [goE_nil] at hmem hdel
    rcases hcur k v hmem hdel with hk | hg
    · simp [keysF] at hk
    · exact hg
  | cons kv rest ih =>
    intro cur dels hstep hdist hsub hcur k v hmem hdel
    obtain ⟨k0, v0⟩ := kv
    have hk0cur : k0 ∈ keysF cur := hsub k0 (by simp [keysF])
    have hsub' : ∀ k2, k2 ∈ keysF rest → k2 ∈ keysF cur := fun k2 hk =>
      hsub k2 (by simp [keysF] at hk ⊢; exact Or.inr hk)
    have hstep' : ∀ k2 v2, (k2, v2) ∈ rest → (k2 == "period") = false →
        (io && k2 == "valueCodeableConcept") = false →
        ∀ e2 p2 c2 r,
          (e2 = true → (k2 == "careTeam") = true) →
          (p2 = true → (k2 == "agent") = true) →
          (c2 = true → (k2 == "careTeam") = true) →
          go ctx e2 p2 c2 (dosage_step im k2 v2) = some r →
          Good k2 r := fun k2 v2 hm => hstep k2 v2 (List.mem_cons_of_mem _ hm)
    rw [goE_cons] at hmem hdel
    by_cases h1 : (k0 == "period") = true
    · rw [if_pos h1] at hmem hdel
      refine ih cur (dels ++ [k0]) hstep' hdist hsub' ?_ k v hmem hdel
      intro k2 v2 hm hd
      rw [memS_append_single] at hd
      rcases Bool.or_eq_false_iff.mp hd with ⟨hd1, hd2⟩
      rcases hcur k2 v2 hm hd1 with hk | hg
      · simp only [keysF, List.map_cons, List.mem_cons] at hk
        rcases hk with hk | hk
        · exact absurd (beq_iff_eq.mpr hk.symm) (by simp [hd2])
        · exact Or.inl (by simpa [keysF] using hk)
      · exact Or.inr hg
    · rw [if_neg h1] at hmem hdel
      by_cases h2 : (io && k0 == "valueCodeableConcept") = true
      · rw [if_pos h2] at hmem hdel
        refine ih cur (dels ++ [k0]) hstep' hdist hsub' ?_ k v hmem hdel
        intro k2 v2 hm hd
        rw [memS_append_single] at hd
        rcases Bool.or_eq_false_iff.mp hd with ⟨hd1, hd2⟩
        rcases hcur k2 v2 hm hd1 with hk | hg
        · simp only [keysF, List.map_cons, List.mem_cons] at hk
          rcases hk with hk | hk
          · exact absurd (beq_iff_eq.mpr hk.symm) (by simp [hd2])
          · exact Or.inl (by simpa [keysF] using hk)
        · exact Or.inr hg
      · rw [if_neg h2] at hmem hdel
        cases hgo : go ctx
            (k0 == "careTeam" && isArrB (dosage_step im k0 v0) &&
              rtIs cur "ExplanationOfBenefit")
            (k0 == "agent" && isArrB (dosage_step im k0 v0) && rtIs cur "Provenance")
            (k0 == "careTeam" && isArrB (dosage_step im k0 v0) && ic)
            (dosage_step im k0 v0) with
        | none =>
          rw [hgo] at hmem hdel
          dsimp only at hmem hdel
          have hkeys : keysF (updMap cur k0 (dosage_step im k0 v0)) = keysF cur :=
            keysF_updMap_of_has _ hk0cur
          refine ih (updMap cur k0 (dosage_step im k0 v0)) (dels ++ [k0]) hstep'
            (by rw [hkeys]; exact hdist)
            (fun k2 hk => by rw [hkeys]; exact hsub' k2 hk)
            ?_ k v hmem hdel
          intro k2 v2 hm hd
          rw [memS_append_single] at hd
          rcases Bool.or_eq_false_iff.mp hd with ⟨hd1, hd2⟩
          have hne : k2 ≠ k0 := fun he =>
            absurd (beq_iff_eq.mpr he.symm) (by simp [hd2])
          rcases mem_updMap hm with hm2 | ⟨he, _⟩
          · rcases hcur k2 v2 hm2 hd1 with hk | hg
            · simp only [keysF, List.map_cons, List.mem_cons] at hk
              rcases hk with hk | hk
              · exact absurd hk hne
              · exact Or.inl (by simpa [keysF] using hk)
            · exact Or.inr hg
          · exact absurd he hne
        | some r =>
          rw [hgo] at hmem hdel
          dsimp only at hmem hdel
          have hkeys : keysF (updMap cur k0 r) = keysF cur :=
            keysF_updMap_of_has _ hk0cur
          refine ih (updMap cur k0 r) dels hstep'
            (by rw [hkeys]; exact hdist)
            (fun k2 hk => by rw [hkeys]; exact hsub' k2 hk)
            ?_ k v hmem hdel
          intro k2 v2 hm hd
          by_cases hne : k2 = k0
          · subst hne
            have hv2 : v2 = r := mem_updMap_self_distinct hdist hk0cur hm
            subst hv2
            exact Or.inr (hstep k2 v0 (by simp) (by simpa using h1)
              (by simpa using h2) _ _ _ _
              (fun he => by
                rcases Bool.and_eq_true_iff.mp he with ⟨he2, _⟩
                exact (Bool.and_eq_true_iff.mp he2).1)
              (fun he => by
                rcases Bool.and_eq_true_iff.mp he with ⟨he2, _⟩
                exact (Bool.and_eq_true_iff.mp he2).1)
              (fun he => by
                rcases Bool.and_eq_true_iff.mp he with ⟨he2, _⟩
                exact (Bool.and_eq_true_iff.mp he2).1)
              hgo)
          · rcases mem_updMap hm with hm2 | ⟨he, _⟩
            · rcases hcur k2 v2 hm2 hd with hk | hg
              · simp only [keysF, List.map_cons, List.mem_cons] at hk
                rcases hk with hk | hk
                · exact absurd hk hne
                · exact Or.inl (by simpa [keysF] using hk)
              · exact Or.inr hg
            · exact absurd he hne

/-! ## The object case, unpacked -/

theorem go_obj_removed {ctx : Ctx} {e p c : Bool} {fs : List (String × JSON)}
    (h : ref_step ctx fs = none) : go ctx e p c (.obj fs) = none := by
  rw [go_obj]
  unfold goObjStep
  rw [h]

theorem go_obj_some {ctx : Ctx} {e p c : Bool} {fs fs1 : List (String × JSON)}
    (h : ref_step ctx fs = some fs1) :
    go ctx e p c (.obj fs) = some (.obj
      (eraseKeysL
        (goEntriesW ctx (rtIs fs "Observation") (rtIs fs "CarePlan")
          (rtIs fs "MedicationRequest") (phaseF c fs1) (phaseF c fs1) []).1
        (goEntriesW ctx (rtIs fs "Observation") (rtIs fs "CarePlan")
          (rtIs fs "MedicationRequest") (phaseF c fs1) (phaseF c fs1) []).2 ++
        provF ctx e c fs1 ++ whoF ctx p c fs1)) := by
  rw [go_obj]
  unfold goObjStep
  rw [h]

theorem mem_phaseF {c : Bool} {fs1 : List (String × JSON)} {k : String}
    {v : JSON} (h : (k, v) ∈ phaseF c fs1) : (k, v) ∈ fs1 := by
  unfold phaseF at h
  by_cases hc : (c && hasKey fs1 "reference") = true
  · rw [if_pos hc] at h
    exact List.mem_filter.mp h |>.1
  · rw [if_neg hc] at h
    exact h

theorem phaseF_keys_sub {c : Bool} {fs1 : List (String × JSON)} {k : String}
    (h : k ∈ keysF (phaseF c fs1)) : k ∈ keysF fs1 := by
  simp only [keysF, List.mem_map] at h
  obtain ⟨⟨k2, v2⟩, hm, hk⟩ := h
  subst hk
  exact keysF_mem (mem_phaseF hm)

theorem phaseF_distinct {c : Bool} {fs1 : List (String × JSON)}
    (h : distinctKeys (keysF fs1) = true) :
    distinctKeys (keysF (phaseF c fs1)) = true := by
  rw [distinctKeys_iff_nodup] at h ⊢
  unfold phaseF
  by_cases hc : (c && hasKey fs1 "reference") = true
  · rw [if_pos hc]
    exact List.Nodup.sublist (List.Sublist.map _ (List.filter_sublist _)) h
  · rw [if_neg hc]
    exact h

theorem lookupM_phaseF_ref {c : Bool} {fs1 : List (String × JSON)} :
    lookupM (phaseF c fs1) "reference" = lookupM fs1 "reference" := by
  unfold phaseF
  by_cases hc : (c && hasKey fs1 "reference") = true
  · rw [if_pos hc]
    exact lookupM_filter_keyfun _ (fun v => by simp)
  · rw [if_neg hc]

theorem provF_keys {ctx : Ctx} {e c : Bool} {fs1 : List (String × JSON)}
    {k : String} {v : JSON} (h : (k, v) ∈ provF ctx e c fs1) :
    k = "provider" := by
  unfold provF at h
  split at h
  · split at h
    · simp at h
      exact h.1
    · simp at h
  · simp at h

theorem whoF_keys {ctx : Ctx} {p c : Bool} {fs1 : List (String × JSON)}
    {k : String} {v : JSON} (h : (k, v) ∈ whoF ctx p c fs1) :
    k = "who" := by
  unfold whoF at h
  split at h
  · split at h
    · simp at h
      exact h.1
    · simp at h
  · simp at h

/-- If the object has a string reference that the elif chain resolves to
t (possibly unchanged), the walk keeps the object and its reference
field reads t afterwards. -/
theorem go_obj_keeps_ref {ctx : Ctx} {e p c : Bool}
    {fs : List (String × JSON)} {s t : String}
    (hd : distinctKeys (keysF fs) = true)
    (hl : lookupM fs "reference" = some (.str s))
    (hr : refResolveStr ctx s = some t) :
    ∃ fs2, go ctx e p c (.obj fs) = some (.obj fs2) ∧
      lookupM fs2 "reference" = some (.str t) := by
  have href : ref_step ctx fs = some (updMap fs "reference" (.str t)) := by
    rw [ref_step_of_str hl, hr]
  set fs1 := updMap fs "reference" (.str t) with hfs1
  have hl1 : lookupM fs1 "reference" = some (.str t) := lookupM_updMap_self _ _ _
  have hkeys1 : keysF fs1 = keysF fs :=
    keysF_updMap_of_has _ (keys_of_lookupM_isSome (by simp [hl]))
  have hd1 : distinctKeys (keysF fs1) = true := by rw [hkeys1]; exact hd
  have hdF : distinctKeys (keysF (phaseF c fs1)) = true := phaseF_distinct hd1
  have hlF : lookupM (phaseF c fs1) "reference" = some (.str t) := by
    rw [lookupM_phaseF_ref]
    exact hl1
  refine ⟨_, go_obj_some href, ?_⟩
  -- the loop result
  set pr := goEntriesW ctx (rtIs fs "Observation") (rtIs fs "CarePlan")
    (rtIs fs "MedicationRequest") (phaseF c fs1) (phaseF c fs1) [] with hpr
  have hgood : ∀ k v, (k, v) ∈ pr.1 → memS pr.2 k = false →
      (k = "reference" → v = .str t) := by
    refine goEW_inv ctx _ _ _ (fun k v => k = "reference" → v = .str t)
      (phaseF c fs1) (phaseF c fs1) [] ?_ hdF (fun k hk => hk) ?_
    · intro k v hm _ _ e2 p2 c2 r _ _ _ hgo hk
      subst hk
      have hv : v = .str t := by
        have := lookupM_eq_of_mem_distinct hdF hm
        rw [hlF] at this
        exact Option.some.inj this.symm
      subst hv
      rw [show dosage_step (rtIs fs "MedicationRequest") "reference" (.str t) =
        .str t from rfl, go_str] at hgo
      exact (Option.some.inj hgo).symm
    · intro k v hm _
      exact Or.inl (keysF_mem hm)
  have hkeyseq : keysF pr.1 = keysF (phaseF c fs1) :=
    goEW_keys ctx _ _ _ (phaseF c fs1) (phaseF c fs1) [] (fun k hk => hk)
  have hdcur : distinctKeys (keysF pr.1) = true := by rw [hkeyseq]; exact hdF
  have hrefkey : "reference" ∈ keysF pr.1 := by
    rw [hkeyseq]
    exact keys_of_lookupM_isSome (by simp [hlF])
  have hnotdel : memS pr.2 "reference" = false := by
    cases hmd : memS pr.2 "reference" with
    | false => rfl
    | true =>
      exfalso
      rcases goEW_dels ctx _ _ _ (phaseF c fs1) (phaseF c fs1) [] _ hmd with
        hin | ⟨v, hv, hc2⟩
      · simp [memS] at hin
      · have hveq : v = .str t := by
          have := lookupM_eq_of_mem_distinct hdF hv
          rw [hlF] at this
          exact Option.some.inj this.symm
        subst hveq
        rcases hc2 with hc2 | hc2 | ⟨e2, p2, c2, hc2⟩
        · simp at hc2
        · simp at hc2
        · rw [show dosage_step (rtIs fs "MedicationRequest") "reference" (.str t) =
              .str t from rfl, go_str] at hc2
          exact absurd hc2 (by simp)
  obtain ⟨v, hvmem⟩ : ∃ v, lookupM pr.1 "reference" = some v := by
    have := lookupM_isSome_of_mem_keys hrefkey
    cases hx : lookupM pr.1 "reference" with
    | none => rw [hx] at this; simp at this
    | some v => exact ⟨v, rfl⟩
  have hvt : v = .str t := hgood _ _ (lookupM_mem hvmem) hnotdel rfl
  subst hvt
  have h5 : lookupM (eraseKeysL pr.1 pr.2) "reference" = some (.str t) := by
    rw [lookupM_eraseKeysL hnotdel]
    exact hvmem
  exact lookupM_append_left (lookupM_append_left h5)

/-- If the elif chain removes the reference, the walk removes the whole
object. -/
theorem go_obj_removes_ref {ctx : Ctx} {e p c : Bool}
    {fs : List (String × JSON)} {s : String}
    (hl : lookupM fs "reference" = some (.str s))
    (hr : refResolveStr ctx s = none) : go ctx e p c (.obj fs) = none :=
  go_obj_removed (by rw [ref_step_of_str hl, hr])

/-! ## Branch computations of the elif chain -/

theorem refResolve_urn_hit {ctx : Ctx} {s ty : String}
    (h1 : strStarts s "urn:uuid:" = true)
    (h2 : lookupM ctx.uuidMap (strReplace s "urn:uuid:" "") = some ty) :
    refResolveStr ctx s = some (ty ++ "/" ++ strReplace s "urn:uuid:" "") := by
  unfold refResolveStr
  rw [if_pos h1]
  dsimp only
  rw [h2]

theorem refResolve_urn_miss {ctx : Ctx} {s : String}
    (h1 : strStarts s "urn:uuid:" = true)
    (h2 : lookupM ctx.uuidMap (strReplace s "urn:uuid:" "") = none) :
    refResolveStr ctx s = some s := by
  unfold refResolveStr
  rw [if_pos h1]
  dsimp only
  rw [h2]

theorem refResolve_ident_hit {ctx : Ctx} {s rt sys v mt mid : String}
    (h1 : strStarts s "urn:uuid:" = false)
    (h2 : (strHasSub s "?identifier=" && strHasSub s "|") = true)
    (h3 : identGroups s = some (rt, sys, v))
    (h4 : lookupM ctx.identifierMap v = some (mt, mid)) :
    refResolveStr ctx s = some (mt ++ "/" ++ mid) := by
  unfold refResolveStr
  rw [if_neg (by simp [h1]), if_pos h2, h3]
  dsimp only
  rw [h4]

theorem refResolve_ident_miss {ctx : Ctx} {s rt sys v : String}
    (h1 : strStarts s "urn:uuid:" = false)
    (h2 : (strHasSub s "?identifier=" && strHasSub s "|") = true)
    (h3 : identGroups s = some (rt, sys, v))
    (h4 : lookupM ctx.identifierMap v = none) :
    refResolveStr ctx s = none := by
  unfold refResolveStr
  rw [if_neg (by simp [h1]), if_pos h2, h3]
  dsimp only
  rw [h4]

theorem refResolve_ident_nomatch {ctx : Ctx} {s : String}
    (h1 : strStarts s "urn:uuid:" = false)
    (h2 : (strHasSub s "?identifier=" && strHasSub s "|") = true)
    (h3 : identGroups s = none) :
    refResolveStr ctx s = some s := by
  unfold refResolveStr
  rw [if_neg (by simp [h1]), if_pos h2, h3]

theorem refResolve_internal {ctx : Ctx} {s : String}
    (h1 : strStarts s "urn:uuid:" = false)
    (h2 : (strHasSub s "?identifier=" && strHasSub s "|") = false)
    (h3 : strStarts s "#" = true) :
    refResolveStr ctx s = none := by
  unfold refResolveStr
  rw [if_neg (by simp [h1]), if_neg (by simp [h2]), if_pos h3]

theorem refResolve_slash_uuid {ctx : Ctx} {s : String}
    {bef aft : List Char}
    (h1 : strStarts s "urn:uuid:" = false)
    (h2 : (strHasSub s "?identifier=" && strHasSub s "|") = false)
    (h3 : strStarts s "#" = false)
    (h4 : breakAtSlash (chars s) = some (bef, aft))
    (h5 : is_uuid_format (String.mk aft) = true) :
    refResolveStr ctx s = some s := by
  unfold refResolveStr
  rw [if_neg (by simp [h1]), if_neg (by simp [h2]), if_neg (by simp [h3]), h4]
  dsimp only
  rw [if_pos h5]

theorem refResolve_slash_map {ctx : Ctx} {s : String} {bef aft : List Char}
    {mt mid : String}
    (h1 : strStarts s "urn:uuid:" = false)
    (h2 : (strHasSub s "?identifier=" && strHasSub s "|") = false)
    (h3 : strStarts s "#" = false)
    (h4 : breakAtSlash (chars s) = some (bef, aft))
    (h5 : is_uuid_format (String.mk aft) = false)
    (h6 : lookupM ctx.identifierMap (String.mk aft) = some (mt, mid)) :
    refResolveStr ctx s = some (mt ++ "/" ++ mid) := by
  unfold refResolveStr
  rw [if_neg (by simp [h1]), if_neg (by simp [h2]), if_neg (by simp [h3]), h4]
  dsimp only
  rw [if_neg (by simp [h5]), h6]

theorem refResolve_slash_miss {ctx : Ctx} {s : String} {bef aft : List Char}
    (h1 : strStarts s "urn:uuid:" = false)
    (h2 : (strHasSub s "?identifier=" && strHasSub s "|") = false)
    (h3 : strStarts s "#" = false)
    (h4 : breakAtSlash (chars s) = some (bef, aft))
    (h5 : is_uuid_format (String.mk aft) = false)
    (h6 : lookupM ctx.identifierMap (String.mk aft) = none) :
    refResolveStr ctx s = none := by
  unfold refResolveStr
  rw [if_neg (by simp [h1]), if_neg (by simp [h2]), if_neg (by simp [h3]), h4]
  dsimp only
  rw [if_neg (by simp [h5]), h6]

/-! ## Claim C1 -/

theorem build_entry_step_snd
    (maps : List (String × String) × List (String × (String × String)))
    (e : JSON) (h : strStarts (entry_full_url e) "urn:uuid:" = true) :
    (build_entry_step maps e).2 =
      resource_identifier_step maps.2 (entry_resource_fields e) := by
  simp only [build_entry_step, if_pos h]

theorem build_fold_snd :
    ∀ (es : List JSON) (um : List (String × String))
      (im : List (String × (String × String))),
      (∀ e ∈ es, strStarts (entry_full_url e) "urn:uuid:" = true) →
      (es.foldl build_entry_step (um, im)).2 =
        es.foldl (fun a e => resource_identifier_step a (entry_resource_fields e))
          im := by
  intro es
  induction es with
  | nil => intro um im _; rfl
  | cons e rest ih =>
    intro um im h
    have he : strStarts (entry_full_url e) "urn:uuid:" = true :=
      h e (List.mem_cons_self _ _)
    simp only [List.foldl_cons]
    have hsnd := build_entry_step_snd (um, im) e he
    rcases hstep : build_entry_step (um, im) e with ⟨um1, im1⟩
    rw [hstep] at hsnd
    have him1 : im1 = resource_identifier_step im (entry_resource_fields e) := hsnd
    rw [← him1]
    exact ih um1 im1 (fun e2 hm => h e2 (List.mem_cons_of_mem _ hm))

/-- Counterexample document for C1: a Bundle whose only entry has a
non-urn fullUrl but carries an identifier. -/
def docC1 : JSON :=
  .obj [("resourceType", .str "Bundle"),
        ("entry", .arr [
          .obj [("fullUrl", .str "http://example.org/e1"),
                ("resource", .obj
                  [("resourceType", .str "Patient"),
                   ("id", .str "p1"),
                   ("identifier", .arr [.obj [("value", .str "MRN-1")]])])]])]

/-- C1 counterexample: the claim says the Reference Index Builder
extracts identifiers independently of the fullUrl prefix and therefore
produces, for a single document, the same identifier map as the Global
Identifier Aggregator.  On the document docC1 (one entry, non-urn
fullUrl, an identifier MRN-1) the builder records nothing while the
aggregator records MRN-1, so the two maps differ. -/
theorem claim_C1_counterexample :
    (build_uuid_to_resource_type_map docC1).2 = [] ∧
    build_global_identifier_map [docC1] = [("MRN-1", ("Patient", "p1"))] ∧
    (build_uuid_to_resource_type_map docC1).2 ≠
      build_global_identifier_map [docC1] := by
  refine ⟨rfl, rfl, ?_⟩
  intro h
  rw [show (build_uuid_to_resource_type_map docC1).2 = [] from rfl,
    show build_global_identifier_map [docC1] =
      [("MRN-1", ("Patient", "p1"))] from rfl] at h
  exact absurd h (by simp)

/-- C1 amended: in build_uuid_to_resource_type_map the identifier
extraction runs only for entries whose fullUrl starts with urn:uuid:
(it sits inside that guard, script lines 34-50); consequently the local
identifier map agrees with the Global Identifier Aggregator applied to
the single document exactly when every entry of the bundle has a
urn:uuid-prefixed fullUrl. -/
theorem claim_C1 (data : JSON)
    (h : ∀ e ∈ bundle_entries data,
      strStarts (entry_full_url e) "urn:uuid:" = true) :
    (build_uuid_to_resource_type_map data).2 =
      build_global_identifier_map [data] := by
  unfold build_uuid_to_resource_type_map build_global_identifier_map
  simp only [List.foldl_cons, List.foldl_nil]
  exact build_fold_snd (bundle_entries data) [] [] h

/-- The single entry of the C1 witness document. -/
def docC1wEntry : JSON :=
  .obj [("fullUrl", .str "urn:uuid:aaaaaaaa-0000-0000-0000-000000000001"),
        ("resource", .obj
          [("resourceType", .str "Patient"),
           ("id", .str "p1"),
           ("identifier", .arr [.obj [("value", .str "MRN-1")]])])]

/-- Witness document for C1: every entry is urn-prefixed. -/
def docC1w : JSON :=
  .obj [("resourceType", .str "Bundle"), ("entry", .arr [docC1wEntry])]

/-- C1 witness: the amended claim applied to a concrete one-entry
urn-prefixed bundle, where both maps evaluate to the same singleton. -/
theorem claim_C1_witness :
    (build_uuid_to_resource_type_map docC1w).2 =
      build_global_identifier_map [docC1w] ∧
    (build_uuid_to_resource_type_map docC1w).2 =
      [("MRN-1", ("Patient", "p1"))] := by
  constructor
  · apply claim_C1
    intro e he
    rw [show bundle_entries docC1w = [docC1wEntry] from rfl] at he
    rw [List.mem_singleton] at he
    subst he
    rfl
  · rfl

/-! ## Claims C7 and C10: the Coverage injector -/

theorem first_patient_id_skip {e : JSON} {es : List JSON}
    (h : entry_resource_type e ≠ some "Patient") :
    first_patient_id (e :: es) = first_patient_id es := by
  rw [show first_patient_id (e :: es) =
    if (entry_resource_type e == some "Patient") = true then
      lookupM (entry_resource_fields e) "id"
    else first_patient_id es from rfl, if_neg (by simpa using h)]

theorem first_patient_id_hit {e : JSON} {es : List JSON}
    (h : entry_resource_type e = some "Patient") :
    first_patient_id (e :: es) = lookupM (entry_resource_fields e) "id" := by
  rw [show first_patient_id (e :: es) =
    if (entry_resource_type e == some "Patient") = true then
      lookupM (entry_resource_fields e) "id"
    else first_patient_id es from rfl, if_pos (by simp [h])]

/-- C10: the patient scan of add_coverage_resources stops at the first
entry whose resource is typed Patient; if that first Patient has no
truthy id the injection is aborted and the document comes back
unchanged, even when a later Patient entry carries an id; and in every
abort case (non-Bundle document, missing or non-list entry value, no
Patient, falsy id) the input document is returned unchanged. -/
theorem claim_C10 :
    (∀ (pre : List JSON) (p1 : JSON) (rest : List JSON),
      (∀ e ∈ pre, entry_resource_type e ≠ some "Patient") →
      entry_resource_type p1 = some "Patient" →
      first_patient_id (pre ++ p1 :: rest) =
        lookupM (entry_resource_fields p1) "id") ∧
    (∀ (dfs : List (String × JSON)) (es : List JSON) (org : String)
      (gen : Nat → String),
      lookupM dfs "entry" = some (.arr es) →
      (∀ pid, first_patient_id es = some pid → truthyJ pid = false) →
      add_coverage_resources (.obj dfs) org gen = .obj dfs) ∧
    (∀ (dfs : List (String × JSON)) (org : String) (gen : Nat → String),
      (rtIs dfs "Bundle" && hasKey dfs "entry") = false →
      add_coverage_resources (.obj dfs) org gen = .obj dfs) := by
  refine ⟨?_, ?_, ?_⟩
  · intro pre p1 rest hpre hp1
    induction pre with
    | nil =>
      rw [List.nil_append]
      exact first_patient_id_hit hp1
    | cons e pre ih =>
      rw [List.cons_append,
        first_patient_id_skip (hpre e (List.mem_cons_self _ _))]
      exact ih (fun e2 hm => hpre e2 (List.mem_cons_of_mem _ hm))
  · intro dfs es org gen hentry habort
    unfold add_coverage_resources
    dsimp only
    by_cases hg : (rtIs dfs "Bundle" && hasKey dfs "entry") = true
    · rw [if_pos hg, hentry]
      dsimp only
      cases hfp : first_patient_id es with
      | none => rfl
      | some pid =>
        dsimp only
        rw [if_neg (by simp [habort pid hfp])]
    · rw [if_neg hg]
  · intro dfs org gen hg
    unfold add_coverage_resources
    dsimp only
    rw [if_neg (by simp [hg])]

/-- A Patient entry with no id at all. -/
def patientNoId : JSON :=
  .obj [("fullUrl", .str "urn:uuid:p1"),
        ("resource", .obj [("resourceType", .str "Patient")])]

/-- A Patient entry with an id, placed after the id-less one. -/
def patientWithId : JSON :=
  .obj [("fullUrl", .str "urn:uuid:p2"),
        ("resource", .obj [("resourceType", .str "Patient"),
                           ("id", .str "p2")])]

/-- C10 witness: a Bundle whose first Patient has no id but whose second
does; the theorem applies concretely and the injector returns the
document unchanged. -/
theorem claim_C10_witness :
    add_coverage_resources
      (.obj [("resourceType", .str "Bundle"),
             ("entry", .arr [patientNoId, patientWithId])]) "org-1"
      (fun _ => "cov") =
    .obj [("resourceType", .str "Bundle"),
          ("entry", .arr [patientNoId, patientWithId])] := by
  have h := claim_C10.2.1
    [("resourceType", .str "Bundle"),
     ("entry", .arr [patientNoId, patientWithId])]
    [patientNoId, patientWithId] "org-1" (fun _ => "cov") rfl
  apply h
  intro pid hpid
  rw [show first_patient_id [patientNoId, patientWithId] = none from rfl] at hpid
  exact absurd hpid (by simp)

theorem add_entries_no_eob {pid org : String} {gen : Nat → String} :
    ∀ (n : Nat) (es : List JSON),
      (∀ e ∈ es, entry_resource_type e ≠ some "ExplanationOfBenefit") →
      add_entries pid org gen n es = es := by
  intro n es
  induction es generalizing n with
  | nil => intro _; rfl
  | cons e rest ih =>
    intro h
    unfold add_entries
    rw [if_neg (by simpa using h e (List.mem_cons_self _ _))]
    rw [ih _ (fun e2 hm => h e2 (List.mem_cons_of_mem _ hm))]

/-- C7: with a Patient found (truthy id P), the injector rebuilds the
entry list in original order; a stretch with no ExplanationOfBenefit is
kept as is; immediately before each ExplanationOfBenefit entry it
inserts the generated Coverage entry (status active, beneficiary
Patient/P, payor[0] Organization/org, POST request, the fresh uuid as
both id and fullUrl suffix -- see coverage_entry_json) and overwrites
that resource's insurance with the focal coverage reference (see
set_insurance); and with no Patient in the entry list the document is
returned unmodified. -/
theorem claim_C7 (dfs : List (String × JSON)) (es : List JSON) (pid : JSON)
    (org : String) (gen : Nat → String)
    (hb : rtIs dfs "Bundle" = true)
    (he : lookupM dfs "entry" = some (.arr es))
    (hp : first_patient_id es = some pid)
    (ht : truthyJ pid = true) :
    add_coverage_resources (.obj dfs) org gen =
      .obj (updMap dfs "entry" (.arr (add_entries (pyStr pid) org gen 0 es))) ∧
    (∀ (n : Nat) (pre : List JSON) (eob : JSON) (post : List JSON),
      (∀ e ∈ pre, entry_resource_type e ≠ some "ExplanationOfBenefit") →
      entry_resource_type eob = some "ExplanationOfBenefit" →
      add_entries (pyStr pid) org gen n (pre ++ eob :: post) =
        pre ++ coverage_entry_json (gen n) (pyStr pid) org ::
          set_insurance eob (gen n) ::
            add_entries (pyStr pid) org gen (n + 1) post) ∧
    (∀ (dfs2 : List (String × JSON)) (es2 : List JSON),
      lookupM dfs2 "entry" = some (.arr es2) →
      first_patient_id es2 = none →
      add_coverage_resources (.obj dfs2) org gen = .obj dfs2) := by
  refine ⟨?_, ?_, ?_⟩
  · unfold add_coverage_resources
    dsimp only
    rw [if_pos (by simp [hb, hasKey, he]), he]
    dsimp only
    rw [hp]
    dsimp only
    rw [if_pos ht]
  · intro n pre eob post hpre heob
    have step_eq : ∀ (m : Nat) (e : JSON) (es2 : List JSON),
        add_entries (pyStr pid) org gen m (e :: es2) =
          if (entry_resource_type e == some "ExplanationOfBenefit") = true then
            coverage_entry_json (gen m) (pyStr pid) org ::
              set_insurance e (gen m) ::
                add_entries (pyStr pid) org gen (m + 1) es2
          else e :: add_entries (pyStr pid) org gen m es2 :=
      fun _ _ _ => rfl
    induction pre generalizing n with
    | nil =>
      rw [List.nil_append, step_eq, if_pos (by simp [heob]), List.nil_append]
    | cons e pre ih =>
      rw [List.cons_append, step_eq,
        if_neg (by simpa using hpre e (List.mem_cons_self _ _)),
        ih n (fun e2 hm => hpre e2 (List.mem_cons_of_mem _ hm)),
        List.cons_append]
  · intro dfs2 es2 he2 hp2
    unfold add_coverage_resources
    dsimp only
    by_cases hg : (rtIs dfs2 "Bundle" && hasKey dfs2 "entry") = true
    · rw [if_pos hg, he2]
      dsimp only
      rw [hp2]
    · rw [if_neg hg]

/-- The Patient entry of the C7 witness bundle. -/
def patientP1 : JSON :=
  .obj [("fullUrl", .str "urn:uuid:e1"),
        ("resource", .obj [("resourceType", .str "Patient"),
                           ("id", .str "P1")])]

/-- The ExplanationOfBenefit entry of the C7 witness bundle. -/
def eobEntry : JSON :=
  .obj [("fullUrl", .str "urn:uuid:e2"),
        ("resource", .obj [("resourceType", .str "ExplanationOfBenefit"),
                           ("id", .str "E1")])]

/-- C7 witness: the spec scenario, one Patient (id P1) and one
ExplanationOfBenefit; the output contains the fresh Coverage entry
immediately before the ExplanationOfBenefit, with beneficiary
Patient/P1 and the insurance wired to Coverage/cov-0. -/
theorem claim_C7_witness :
    add_coverage_resources
      (.obj [("resourceType", .str "Bundle"),
             ("entry", .arr [patientP1, eobEntry])]) "org-1"
      (fun n => "cov-" ++ toString n) =
    .obj [("resourceType", .str "Bundle"),
          ("entry", .arr
            [patientP1,
             coverage_entry_json "cov-0" "P1" "org-1",
             set_insurance eobEntry "cov-0"])] := by
  have h := (claim_C7
    [("resourceType", .str "Bundle"), ("entry", .arr [patientP1, eobEntry])]
    [patientP1, eobEntry] (.str "P1") "org-1"
    (fun n => "cov-" ++ toString n) rfl rfl rfl rfl).1
  rw [h]
  rfl

/-! ## Claims C4, C5, C6: the reference shapes -/

/-- An empty context: no uuid map, no identifier map, no configured
ids. -/
def ctx0 : Ctx := ⟨[], [], none, none⟩

/-- C5: an object whose reference starts with urn:uuid: and whose
stripped UUID is not in the document UUID map is kept, its reference
string exactly as it was (only a warning is printed) -- unlike the
identifier shape, the internal-# shape and the bare-ID shape, where an
unresolved reference removes the enclosing object. -/
theorem claim_C5 :
    (∀ (ctx : Ctx) (e p c : Bool) (fs : List (String × JSON)) (s : String),
      distinctKeys (keysF fs) = true →
      lookupM fs "reference" = some (.str s) →
      strStarts s "urn:uuid:" = true →
      lookupM ctx.uuidMap (strReplace s "urn:uuid:" "") = none →
      ∃ fs2, go ctx e p c (.obj fs) = some (.obj fs2) ∧
        lookupM fs2 "reference" = some (.str s)) ∧
    (∀ (ctx : Ctx) (e p c : Bool) (fs : List (String × JSON))
      (s rt sys v : String),
      lookupM fs "reference" = some (.str s) →
      strStarts s "urn:uuid:" = false →
      (strHasSub s "?identifier=" && strHasSub s "|") = true →
      identGroups s = some (rt, sys, v) →
      lookupM ctx.identifierMap v = none →
      go ctx e p c (.obj fs) = none) ∧
    (∀ (ctx : Ctx) (e p c : Bool) (fs : List (String × JSON)) (s : String),
      lookupM fs "reference" = some (.str s) →
      strStarts s "urn:uuid:" = false →
      (strHasSub s "?identifier=" && strHasSub s "|") = false →
      strStarts s "#" = true →
      go ctx e p c (.obj fs) = none) ∧
    (∀ (ctx : Ctx) (e p c : Bool) (fs : List (String × JSON)) (s : String)
      (bef aft : List Char),
      lookupM fs "reference" = some (.str s) →
      strStarts s "urn:uuid:" = false →
      (strHasSub s "?identifier=" && strHasSub s "|") = false →
      strStarts s "#" = false →
      breakAtSlash (chars s) = some (bef, aft) →
      is_uuid_format (String.mk aft) = false →
      lookupM ctx.identifierMap (String.mk aft) = none →
      go ctx e p c (.obj fs) = none) := by
  refine ⟨?_, ?_, ?_, ?_⟩
  · intro ctx e p c fs s hd hl h1 h2
    exact go_obj_keeps_ref hd hl (refResolve_urn_miss h1 h2)
  · intro ctx e p c fs s rt sys v hl h1 h2 h3 h4
    exact go_obj_removes_ref hl (refResolve_ident_miss h1 h2 h3 h4)
  · intro ctx e p c fs s hl h1 h2 h3
    exact go_obj_removes_ref hl (refResolve_internal h1 h2 h3)
  · intro ctx e p c fs s bef aft hl h1 h2 h3 h4 h5 h6
    exact go_obj_removes_ref hl (refResolve_slash_miss h1 h2 h3 h4 h5 h6)

/-- C5 witness: with empty maps, an unresolvable urn:uuid reference is
kept as-is while an internal # reference removes the object. -/
theorem claim_C5_witness :
    (∃ fs2, go ctx0 false false false
        (.obj [("reference", .str "urn:uuid:zzz")]) = some (.obj fs2) ∧
      lookupM fs2 "reference" = some (.str "urn:uuid:zzz")) ∧
    go ctx0 false false false (.obj [("reference", .str "#contained-1")]) =
      none :=
  ⟨claim_C5.1 ctx0 false false false [("reference", .str "urn:uuid:zzz")]
      "urn:uuid:zzz" rfl rfl rfl rfl,
    claim_C5.2.2.1 ctx0 false false false
      [("reference", .str "#contained-1")] "#contained-1" rfl rfl rfl rfl⟩

/-- C6 amended: for a reference that does not start with urn:uuid: (the
urn branch has precedence) and contains both ?identifier= and a pipe:
if the regex matches and the captured value resolves in the identifier
map, the reference is rewritten to mappedType/mappedId and the object
kept; if it matches but the value is unresolved, the object is removed;
if the regex does not match, the reference and the object are left
untouched. -/
theorem claim_C6 :
    (∀ (ctx : Ctx) (e p c : Bool) (fs : List (String × JSON))
      (s rt sys v mt mid : String),
      distinctKeys (keysF fs) = true →
      lookupM fs "reference" = some (.str s) →
      strStarts s "urn:uuid:" = false →
      (strHasSub s "?identifier=" && strHasSub s "|") = true →
      identGroups s = some (rt, sys, v) →
      lookupM ctx.identifierMap v = some (mt, mid) →
      ∃ fs2, go ctx e p c (.obj fs) = some (.obj fs2) ∧
        lookupM fs2 "reference" = some (.str (mt ++ "/" ++ mid))) ∧
    (∀ (ctx : Ctx) (e p c : Bool) (fs : List (String × JSON))
      (s rt sys v : String),
      lookupM fs "reference" = some (.str s) →
      strStarts s "urn:uuid:" = false →
      (strHasSub s "?identifier=" && strHasSub s "|") = true →
      identGroups s = some (rt, sys, v) →
      lookupM ctx.identifierMap v = none →
      go ctx e p c (.obj fs) = none) ∧
    (∀ (ctx : Ctx) (e p c : Bool) (fs : List (String × JSON)) (s : String),
      distinctKeys (keysF fs) = true →
      lookupM fs "reference" = some (.str s) →
      strStarts s "urn:uuid:" = false →
      (strHasSub s "?identifier=" && strHasSub s "|") = true →
      identGroups s = none →
      ∃ fs2, go ctx e p c (.obj fs) = some (.obj fs2) ∧
        lookupM fs2 "reference" = some (.str s)) := by
  refine ⟨?_, ?_, ?_⟩
  · intro ctx e p c fs s rt sys v mt mid hd hl h1 h2 h3 h4
    exact go_obj_keeps_ref hd hl (refResolve_ident_hit h1 h2 h3 h4)
  · intro ctx e p c fs s rt sys v hl h1 h2 h3 h4
    exact go_obj_removes_ref hl (refResolve_ident_miss h1 h2 h3 h4)
  · intro ctx e p c fs s hd hl h1 h2 h3
    exact go_obj_keeps_ref hd hl (refResolve_ident_nomatch h1 h2 h3)

/-- The C6 counterexample context: a UUID map keyed by a string that
contains the identifier-reference pattern. -/
def ctxC6 : Ctx := ⟨[("x?identifier=a|b", "Patient")], [], none, none⟩

/-- C6 counterexample: the claim quantifies over every object whose
reference contains both ?identifier= and a pipe and says that when the
pattern does not match the reference is left untouched.  The reference
urn:uuid:x?identifier=a|b contains both and the pattern does not match
(the word-char group cannot be followed by the literal question mark),
yet the urn:uuid: branch has precedence and rewrites it. -/
theorem claim_C6_counterexample :
    strHasSub "urn:uuid:x?identifier=a|b" "?identifier=" = true ∧
    strHasSub "urn:uuid:x?identifier=a|b" "|" = true ∧
    identGroups "urn:uuid:x?identifier=a|b" = none ∧
    go ctxC6 false false false
      (.obj [("reference", .str "urn:uuid:x?identifier=a|b")]) =
      some (.obj [("reference", .str "Patient/x?identifier=a|b")]) :=
  ⟨rfl, rfl, rfl, rfl⟩

/-- A context holding the spec scenario identifier mapping
ORG-42 -> (Organization, org-uuid-9). -/
def ctxOrg : Ctx := ⟨[], [("ORG-42", ("Organization", "org-uuid-9"))], none, none⟩

/-- C6 witness: the spec scenario.  With ORG-42 in the map the reference
Organization?identifier=http://x|ORG-42 is rewritten to
Organization/org-uuid-9; with an empty map the object is removed. -/
theorem claim_C6_witness :
    (∃ fs2, go ctxOrg false false false
        (.obj [("reference", .str "Organization?identifier=http://x|ORG-42")]) =
        some (.obj fs2) ∧
      lookupM fs2 "reference" = some (.str "Organization/org-uuid-9")) ∧
    go ctx0 false false false
      (.obj [("reference", .str "Organization?identifier=http://x|ORG-42")]) =
      none :=
  ⟨claim_C6.1 ctxOrg false false false
      [("reference", .str "Organization?identifier=http://x|ORG-42")]
      "Organization?identifier=http://x|ORG-42" "Organization" "http://x"
      "ORG-42" "Organization" "org-uuid-9" rfl rfl rfl rfl rfl rfl,
    claim_C6.2.1 ctx0 false false false
      [("reference", .str "Organization?identifier=http://x|ORG-42")]
      "Organization?identifier=http://x|ORG-42" "Organization" "http://x"
      "ORG-42" rfl rfl rfl rfl rfl⟩

/-- C4 counterexample: the claim quantifies over every object whose
reference contains a slash with a UUID-shaped id part and predicts the
rewrite leaves it unchanged and keeps the object.  The reference
string #x/aaaaaaaa-aaaa-aaaa-aaaa-aaaaaaaaaaaa satisfies those
conditions, yet it hits the earlier internal-# branch and the object is
removed. -/
theorem claim_C4_counterexample :
    strHasSub "#x/aaaaaaaa-aaaa-aaaa-aaaa-aaaaaaaaaaaa" "/" = true ∧
    (breakAtSlash (chars "#x/aaaaaaaa-aaaa-aaaa-aaaa-aaaaaaaaaaaa")).map
      (fun pr => String.mk pr.2) =
      some "aaaaaaaa-aaaa-aaaa-aaaa-aaaaaaaaaaaa" ∧
    is_uuid_format "aaaaaaaa-aaaa-aaaa-aaaa-aaaaaaaaaaaa" = true ∧
    go ctx0 false false false
      (.obj [("reference",
        .str "#x/aaaaaaaa-aaaa-aaaa-aaaa-aaaaaaaaaaaa")]) = none :=
  ⟨rfl, rfl, rfl, rfl⟩

/-- C4 amended: the UUID-form branch is the last of the elif chain, so
idempotence holds for references that reach it: for every object whose
reference string does not start with urn:uuid: or #, does not contain
both ?identifier= and a pipe, contains a slash, and whose id part
(after the first slash) is strict-UUID-shaped, the rewrite leaves the
reference string unchanged and keeps the object; in particular the
canonical ResourceType/uuid strings produced by a first pass are left
unchanged by a second pass. -/
theorem claim_C4 (ctx : Ctx) (e p c : Bool) (fs : List (String × JSON))
    (s : String) (bef aft : List Char)
    (hd : distinctKeys (keysF fs) = true)
    (hl : lookupM fs "reference" = some (.str s))
    (h1 : strStarts s "urn:uuid:" = false)
    (h2 : (strHasSub s "?identifier=" && strHasSub s "|") = false)
    (h3 : strStarts s "#" = false)
    (h4 : breakAtSlash (chars s) = some (bef, aft))
    (h5 : is_uuid_format (String.mk aft) = true) :
    ∃ fs2, go ctx e p c (.obj fs) = some (.obj fs2) ∧
      lookupM fs2 "reference" = some (.str s) :=
  go_obj_keeps_ref hd hl (refResolve_slash_uuid h1 h2 h3 h4 h5)

/-- C4 witness: a canonical Patient/uuid reference is left unchanged and
the object kept, even with empty maps. -/
theorem claim_C4_witness :
    ∃ fs2, go ctx0 false false false
        (.obj [("reference",
          .str "Patient/6c0b7f20-5c92-efd9-779b-c9ac40656b44")]) =
        some (.obj fs2) ∧
      lookupM fs2 "reference" =
        some (.str "Patient/6c0b7f20-5c92-efd9-779b-c9ac40656b44") :=
  claim_C4 ctx0 false false false
    [("reference", .str "Patient/6c0b7f20-5c92-efd9-779b-c9ac40656b44")]
    "Patient/6c0b7f20-5c92-efd9-779b-c9ac40656b44"
    (chars "Patient") (chars "6c0b7f20-5c92-efd9-779b-c9ac40656b44")
    rfl rfl rfl rfl rfl rfl rfl

/-! ## Key and value plumbing for the remaining claims -/

theorem lookupM_none_of_not_mem_keys {α : Type} {fs : List (String × α)}
    {k : String} (h : k ∉ keysF fs) : lookupM fs k = none := by
  cases hx : lookupM fs k with
  | none => rfl
  | some v => exact absurd (keys_of_lookupM_isSome (by simp [hx])) h

theorem lookupM_filter_keyfun_none {fs : List (String × JSON)}
    (p : String × JSON → Bool) {k : String}
    (hp : ∀ v, p (k, v) = false) : lookupM (fs.filter p) k = none := by
  apply lookupM_none_of_not_mem_keys
  intro hmem
  simp only [keysF, List.mem_map] at hmem
  obtain ⟨⟨k2, v2⟩, hm, hk⟩ := hmem
  subst hk
  have := (List.mem_filter.mp hm).2
  rw [hp v2] at this
  exact absurd this (by simp)

theorem ref_step_lookup_ne {ctx : Ctx} {fs fs1 : List (String × JSON)}
    {k : String} (h : ref_step ctx fs = some fs1) (hk : k ≠ "reference") :
    lookupM fs1 k = lookupM fs k := by
  unfold ref_step at h
  cases hl : lookupM fs "reference" with
  | none =>
    rw [hl] at h
    dsimp only at h
    rw [← Option.some.inj h]
  | some v =>
    rw [hl] at h
    cases v with
    | str s =>
      dsimp only at h
      cases hr : refResolveStr ctx s with
      | none => rw [hr] at h; exact absurd h (by simp)
      | some t =>
        rw [hr] at h
        rw [← Option.some.inj h]
        exact lookupM_updMap_ne _ _ hk
    | null => dsimp only at h; rw [← Option.some.inj h]
    | bool b => dsimp only at h; rw [← Option.some.inj h]
    | num n => dsimp only at h; rw [← Option.some.inj h]
    | arr xs => dsimp only at h; rw [← Option.some.inj h]
    | obj gs => dsimp only at h; rw [← Option.some.inj h]

theorem goListW_mem {ctx : Ctx} {e p c : Bool} :
    ∀ {xs : List JSON} {y : JSON}, y ∈ goListW ctx e p c xs →
      ∃ x ∈ xs, go ctx e p c x = some y := by
  intro xs
  induction xs with
  | nil => intro y hy; rw [goListW_nil] at hy; simp at hy
  | cons x rest ih =>
    intro y hy
    rw [goListW_cons] at hy
    cases hgo : go ctx e p c x with
    | none =>
      rw [hgo] at hy
      dsimp only at hy
      obtain ⟨x2, hm, hx2⟩ := ih hy
      exact ⟨x2, List.mem_cons_of_mem _ hm, hx2⟩
    | some r =>
      rw [hgo] at hy
      dsimp only at hy
      rcases List.mem_cons.mp hy with hy | hy
      · exact ⟨x, List.mem_cons_self _ _, by rw [hgo, hy]⟩
      · obtain ⟨x2, hm, hx2⟩ := ih hy
        exact ⟨x2, List.mem_cons_of_mem _ hm, hx2⟩

theorem provF_empty_of_e_false {ctx : Ctx} {c : Bool}
    {fs1 : List (String × JSON)} : provF ctx false c fs1 = [] := by
  unfold provF
  rw [if_neg (by simp)]

theorem whoF_empty_of_p_false {ctx : Ctx} {c : Bool}
    {fs1 : List (String × JSON)} : whoF ctx false c fs1 = [] := by
  unfold whoF
  rw [if_neg (by simp)]

theorem phaseF_of_c_false {fs1 : List (String × JSON)} :
    phaseF false fs1 = fs1 := by
  unfold phaseF
  rw [if_neg (by simp)]

theorem eraseKeysL_keys_sub {fs : List (String × JSON)} {dels : List String}
    {k : String} (h : k ∈ keysF (eraseKeysL fs dels)) : k ∈ keysF fs := by
  simp only [keysF, List.mem_map] at h ⊢
  obtain ⟨kv, hm, hk⟩ := h
  exact ⟨kv, (List.mem_filter.mp hm).1, hk⟩

/-- With all three flags off, the walk injects nothing: the keys of the
output object are among the keys of the input object. -/
theorem go_keys_false {ctx : Ctx} {fs fs2 : List (String × JSON)}
    (h : go ctx false false false (.obj fs) = some (.obj fs2)) :
    ∀ k, k ∈ keysF fs2 → k ∈ keysF fs := by
  intro k hk
  cases href : ref_step ctx fs with
  | none => rw [go_obj_removed href] at h; exact absurd h (by simp)
  | some fs1 =>
    rw [go_obj_some href] at h
    have hfs2 := Option.some.inj h
    have hfs2b : fs2 = eraseKeysL
        (goEntriesW ctx (rtIs fs "Observation") (rtIs fs "CarePlan")
          (rtIs fs "MedicationRequest") (phaseF false fs1) (phaseF false fs1) []).1
        (goEntriesW ctx (rtIs fs "Observation") (rtIs fs "CarePlan")
          (rtIs fs "MedicationRequest") (phaseF false fs1) (phaseF false fs1) []).2 ++
        provF ctx false false fs1 ++ whoF ctx false false fs1 := by
      injection hfs2 with h2
      exact h2.symm
    rw [hfs2b, provF_empty_of_e_false, whoF_empty_of_p_false,
      List.append_nil, List.append_nil] at hk
    have hk2 := eraseKeysL_keys_sub hk
    rw [goEW_keys ctx _ _ _ _ _ [] (fun k2 h2 => h2)] at hk2
    rw [phaseF_of_c_false] at hk2
    rw [← ref_step_keys href]
    exact hk2

/-! ## Well-formedness and period-freedom plumbing -/

theorem wfF_mem {fs : List (String × JSON)} {k : String} {v : JSON}
    (hw : wfF fs = true) (hm : (k, v) ∈ fs) : wfJ v = true := by
  induction fs with
  | nil => simp at hm
  | cons kv rest ih =>
    obtain ⟨k1, v1⟩ := kv
    simp only [wfF, Bool.and_eq_true] at hw
    rcases List.mem_cons.mp hm with hm | hm
    · rw [show v = v1 from congrArg Prod.snd hm]
      exact hw.1
    · exact ih hw.2 hm

theorem wfL_mem {xs : List JSON} {x : JSON} (hw : wfL xs = true)
    (hm : x ∈ xs) : wfJ x = true := by
  induction xs with
  | nil => simp at hm
  | cons y rest ih =>
    simp only [wfL, Bool.and_eq_true] at hw
    rcases List.mem_cons.mp hm with hm | hm
    · rw [hm]; exact hw.1
    · exact ih hw.2 hm

theorem wfJ_obj_parts {fs : List (String × JSON)} (h : wfJ (.obj fs) = true) :
    distinctKeys (keysF fs) = true ∧ wfF fs = true := by
  simpa [wfJ, Bool.and_eq_true] using h

theorem wfJ_arr_part {xs : List JSON} (h : wfJ (.arr xs) = true) :
    wfL xs = true := by
  simpa [wfJ] using h

theorem wfF_updMap_str {fs : List (String × JSON)} {k t : String}
    (hw : wfF fs = true) : wfF (updMap fs k (.str t)) = true := by
  induction fs with
  | nil => simp [updMap, wfF, wfJ]
  | cons kv rest ih =>
    obtain ⟨k1, v1⟩ := kv
    simp only [wfF, Bool.and_eq_true] at hw
    by_cases hk : k1 = k
    · simp only [updMap, if_pos hk, wfF, Bool.and_eq_true]
      exact ⟨by simp [wfJ], hw.2⟩
    · simp only [updMap, if_neg hk, wfF, Bool.and_eq_true]
      exact ⟨hw.1, ih hw.2⟩

theorem wfF_filter {fs : List (String × JSON)} (p : String × JSON → Bool)
    (hw : wfF fs = true) : wfF (fs.filter p) = true := by
  induction fs with
  | nil => simp [wfF]
  | cons kv rest ih =>
    obtain ⟨k1, v1⟩ := kv
    simp only [wfF, Bool.and_eq_true] at hw
    rw [List.filter_cons]
    by_cases hp : p (k1, v1) = true
    · rw [if_pos hp]
      simp only [wfF, Bool.and_eq_true]
      exact ⟨hw.1, ih hw.2⟩
    · rw [if_neg (by simp [hp])]
      exact ih hw.2

theorem ref_step_wf {ctx : Ctx} {fs fs1 : List (String × JSON)}
    (h : ref_step ctx fs = some fs1)
    (hd : distinctKeys (keysF fs) = true) (hw : wfF fs = true) :
    distinctKeys (keysF fs1) = true ∧ wfF fs1 = true := by
  constructor
  · rw [ref_step_keys h]; exact hd
  · unfold ref_step at h
    cases hl : lookupM fs "reference" with
    | none =>
      rw [hl] at h
      dsimp only at h
      rw [← Option.some.inj h]
      exact hw
    | some v =>
      rw [hl] at h
      cases v with
      | str s =>
        dsimp only at h
        cases hr : refResolveStr ctx s with
        | none => rw [hr] at h; exact absurd h (by simp)
        | some t =>
          rw [hr] at h
          rw [← Option.some.inj h]
          exact wfF_updMap_str hw
      | null => dsimp only at h; rw [← Option.some.inj h]; exact hw
      | bool b => dsimp only at h; rw [← Option.some.inj h]; exact hw
      | num n => dsimp only at h; rw [← Option.some.inj h]; exact hw
      | arr xs => dsimp only at h; rw [← Option.some.inj h]; exact hw
      | obj gs => dsimp only at h; rw [← Option.some.inj h]; exact hw

theorem wfF_phaseF {c : Bool} {fs1 : List (String × JSON)}
    (hw : wfF fs1 = true) : wfF (phaseF c fs1) = true := by
  unfold phaseF
  by_cases hc : (c && hasKey fs1 "reference") = true
  · rw [if_pos hc]; exact wfF_filter _ hw
  · rw [if_neg hc]; exact hw

theorem wfJ_strip {xs : List JSON} (hw : wfL xs = true) :
    wfL (strip_dosage_items xs) = true := by
  induction xs with
  | nil => simp [strip_dosage_items, wfL]
  | cons x rest ih =>
    simp only [wfL, Bool.and_eq_true] at hw
    cases x with
    | obj g =>
      simp only [strip_dosage_items, wfL, Bool.and_eq_true]
      refine ⟨?_, ih hw.2⟩
      have hparts := wfJ_obj_parts hw.1
      simp only [wfJ, Bool.and_eq_true]
      constructor
      · rw [distinctKeys_iff_nodup] at hparts ⊢
        exact List.Nodup.sublist
          (List.Sublist.map _ (List.filter_sublist _)) hparts.1
      · exact wfF_filter _ hparts.2
    | null => simp only [strip_dosage_items, wfL, Bool.and_eq_true]
              exact ⟨hw.1, ih hw.2⟩
    | bool b => simp only [strip_dosage_items, wfL, Bool.and_eq_true]
                exact ⟨hw.1, ih hw.2⟩
    | num n => simp only [strip_dosage_items, wfL, Bool.and_eq_true]
               exact ⟨hw.1, ih hw.2⟩
    | str s => simp only [strip_dosage_items, wfL, Bool.and_eq_true]
               exact ⟨hw.1, ih hw.2⟩
    | arr ys => simp only [strip_dosage_items, wfL, Bool.and_eq_true]
                exact ⟨hw.1, ih hw.2⟩

theorem wfJ_dosage {im : Bool} {k : String} {v : JSON} (hw : wfJ v = true) :
    wfJ (dosage_step im k v) = true := by
  cases v with
  | arr xs =>
    simp only [dosage_step]
    by_cases hc : (im && k == "dosageInstruction") = true
    · rw [if_pos hc]
      simp only [wfJ]
      exact wfJ_strip (wfJ_arr_part hw)
    · rw [if_neg hc]
      exact hw
  | null => exact hw
  | bool b => exact hw
  | num n => exact hw
  | str s => exact hw
  | obj fs => exact hw

theorem pfF_iff {fs : List (String × JSON)} :
    pfF fs = true ↔
      ∀ k v, (k, v) ∈ fs → k ≠ "period" ∧ periodFree v = true := by
  induction fs with
  | nil => simp [pfF]
  | cons kv rest ih =>
    obtain ⟨k1, v1⟩ := kv
    simp only [pfF, Bool.and_eq_true, ih]
    constructor
    · rintro ⟨⟨h1, h2⟩, h3⟩ k v hm
      rcases List.mem_cons.mp hm with hm | hm
      · obtain hk := congrArg Prod.fst hm
        obtain hv := congrArg Prod.snd hm
        dsimp at hk hv
        subst hk
        subst hv
        exact ⟨by simpa using h1, h2⟩
      · exact h3 k v hm
    · intro h
      refine ⟨⟨?_, (h k1 v1 (List.mem_cons_self _ _)).2⟩, fun k v hm =>
        h k v (List.mem_cons_of_mem _ hm)⟩
      have := (h k1 v1 (List.mem_cons_self _ _)).1
      simpa using this

theorem pfL_iff {xs : List JSON} :
    pfL xs = true ↔ ∀ x ∈ xs, periodFree x = true := by
  induction xs with
  | nil => simp [pfL]
  | cons x rest ih =>
    simp only [pfL, Bool.and_eq_true, ih]
    constructor
    · rintro ⟨h1, h2⟩ y hm
      rcases List.mem_cons.mp hm with hm | hm
      · rw [hm]; exact h1
      · exact h2 y hm
    · intro h
      exact ⟨h x (List.mem_cons_self _ _), fun y hm =>
        h y (List.mem_cons_of_mem _ hm)⟩

theorem provF_shape {ctx : Ctx} {e c : Bool} {fs1 : List (String × JSON)}
    {k : String} {v : JSON} (h : (k, v) ∈ provF ctx e c fs1) :
    k = "provider" ∧ ∃ t, v = .obj [("reference", .str t)] := by
  unfold provF at h
  split at h
  · unfold goInjected at h
    cases hr : refResolveStr ctx ("Organization/" ++ orgIdStr ctx) with
    | none => rw [hr] at h; simp at h
    | some t =>
      rw [hr] at h
      simp only [List.mem_singleton, Prod.mk.injEq] at h
      exact ⟨h.1, t, h.2⟩
  · simp at h

theorem whoF_shape {ctx : Ctx} {p c : Bool} {fs1 : List (String × JSON)}
    {k : String} {v : JSON} (h : (k, v) ∈ whoF ctx p c fs1) :
    k = "who" ∧ ∃ t, v = .obj [("reference", .str t)] := by
  unfold whoF at h
  split at h
  · unfold goInjected at h
    cases hr : refResolveStr ctx ("Practitioner/" ++ practIdStr ctx) with
    | none => rw [hr] at h; simp at h
    | some t =>
      rw [hr] at h
      simp only [List.mem_singleton, Prod.mk.injEq] at h
      exact ⟨h.1, t, h.2⟩
  · simp at h

theorem jsizeF_mem {fs : List (String × JSON)} {k : String} {v : JSON}
    (h : (k, v) ∈ fs) : jsize v ≤ jsizeF fs := by
  induction fs with
  | nil => simp at h
  | cons kv rest ih =>
    obtain ⟨k1, v1⟩ := kv
    simp only [jsizeF]
    rcases List.mem_cons.mp h with h | h
    · rw [show v = v1 from congrArg Prod.snd h]
      omega
    · have := ih h
      omega

theorem jsizeL_mem {xs : List JSON} {x : JSON} (h : x ∈ xs) :
    jsize x ≤ jsizeL xs := by
  induction xs with
  | nil => simp at h
  | cons y rest ih =>
    simp only [jsizeL]
    rcases List.mem_cons.mp h with h | h
    · rw [h]; omega
    · have := ih h
      omega

theorem jsizeF_phaseF_le (c : Bool) (fs1 : List (String × JSON)) :
    jsizeF (phaseF c fs1) ≤ jsizeF fs1 := by
  unfold phaseF
  by_cases hc : (c && hasKey fs1 "reference") = true
  · rw [if_pos hc]; exact jsizeF_filter_le _ _
  · rw [if_neg hc]

/-! ## Claim C8: no period field survives anywhere -/

theorem periodFree_go_aux :
    ∀ (n : Nat) (j : JSON), jsize j ≤ n → ∀ (ctx : Ctx) (e p c : Bool)
      (r : JSON), wfJ j = true → go ctx e p c j = some r →
      periodFree r = true := by
  intro n
  induction n with
  | zero =>
    intro j hj ctx e p c r _ _
    exact absurd hj (by have := jsize_pos j; omega)
  | succ n ih =>
    intro j hj ctx e p c r hw hgo
    cases j with
    | null => rw [go_null] at hgo; rw [← Option.some.inj hgo]; rfl
    | bool b => rw [go_bool] at hgo; rw [← Option.some.inj hgo]; rfl
    | num m => rw [go_num] at hgo; rw [← Option.some.inj hgo]; rfl
    | str s => rw [go_str] at hgo; rw [← Option.some.inj hgo]; rfl
    | arr xs =>
      rw [go_arr] at hgo
      obtain rfl := (Option.some.inj hgo).symm
      show periodFree (.arr _) = true
      simp only [periodFree]
      rw [pfL_iff]
      intro y hy
      obtain ⟨x, hx, hgx⟩ := goListW_mem hy
      have hxsize : jsize x ≤ n := by
        have h1 := jsizeL_mem hx
        simp only [jsize] at hj
        omega
      exact ih x hxsize ctx e p c y (wfL_mem (wfJ_arr_part hw) hx) hgx
    | obj fs =>
      cases href : ref_step ctx fs with
      | none => rw [go_obj_removed href] at hgo; exact absurd hgo (by simp)
      | some fs1 =>
        rw [go_obj_some href] at hgo
        obtain rfl := (Option.some.inj hgo).symm
        obtain ⟨hd, hwF⟩ := wfJ_obj_parts hw
        obtain ⟨hd1, hw1⟩ := ref_step_wf href hd hwF
        have hdF : distinctKeys (keysF (phaseF c fs1)) = true :=
          phaseF_distinct hd1
        have hwFp : wfF (phaseF c fs1) = true := wfF_phaseF hw1
        have hszF : jsizeF fs1 ≤ jsizeF fs := ref_step_size href
        have hszP : jsizeF (phaseF c fs1) ≤ jsizeF fs1 := jsizeF_phaseF_le c fs1
        show periodFree (.obj _) = true
        simp only [periodFree]
        rw [pfF_iff]
        intro k v hm
        rcases List.mem_append.mp hm with hm2 | hmwho
        · rcases List.mem_append.mp hm2 with hmerase | hmprov
          · obtain ⟨hmem, hdel⟩ := mem_eraseKeysL.mp hmerase
            refine goEW_inv ctx (rtIs fs "Observation") (rtIs fs "CarePlan")
              (rtIs fs "MedicationRequest")
              (fun k2 v2 => k2 ≠ "period" ∧ periodFree v2 = true)
              (phaseF c fs1) (phaseF c fs1) [] ?_ hdF (fun k2 h2 => h2)
              (fun k2 v2 hm3 _ => Or.inl (keysF_mem hm3)) k v hmem hdel
            intro k2 v2 hm3 hkp _ e2 p2 c2 r2 _ _ _ hgo2
            constructor
            · intro hk2
              rw [hk2] at hkp
              simp at hkp
            · have hsz2 : jsize (dosage_step (rtIs fs "MedicationRequest") k2 v2) ≤ n := by
                have h1 := jsize_dosage_le (rtIs fs "MedicationRequest") k2 v2
                have h2 := jsizeF_mem hm3
                simp only [jsize] at hj
                omega
              exact ih _ hsz2 ctx e2 p2 c2 r2
                (wfJ_dosage (wfF_mem hwFp hm3)) hgo2
          · obtain ⟨hk, t, hv⟩ := provF_shape hmprov
            subst hk
            subst hv
            exact ⟨by simp, rfl⟩
        · obtain ⟨hk, t, hv⟩ := whoF_shape hmwho
          subst hk
          subst hv
          exact ⟨by simp, rfl⟩

/-- C8: for every well-formed input node (distinct keys at every object,
as Python dicts guarantee), every object node of the output of
replace_references, at every depth, has no field named period. -/
theorem claim_C8 (j : JSON) (ctx : Ctx) (e p c : Bool) (r : JSON)
    (hw : wfJ j = true) (hgo : go ctx e p c j = some r) :
    periodFree r = true :=
  periodFree_go_aux (jsize j) j (le_refl _) ctx e p c r hw hgo

/-- The C8 witness document: period fields at two depths. -/
def docC8 : JSON :=
  .obj [("resourceType", .str "Patient"),
        ("period", .obj [("start", .str "2020")]),
        ("name", .arr [.obj [("period", .obj []), ("family", .str "X")]])]

/-- The rewrite of docC8. -/
def outC8 : JSON :=
  .obj [("resourceType", .str "Patient"),
        ("name", .arr [.obj [("family", .str "X")]])]

/-- C8 witness: the theorem applied to a concrete document carrying
period fields at two depths; the output is period-free. -/
theorem claim_C8_witness :
    wfJ docC8 = true ∧ go ctx0 false false false docC8 = some outC8 ∧
    periodFree outC8 = true :=
  ⟨rfl, rfl, claim_C8 docC8 ctx0 false false false outC8 rfl rfl⟩

/-! ## Claim C3: CarePlan.careTeam shape -/

/-- The careTeam element of the C3 counterexample: no reference field,
one extraneous field. -/
def elemC3 : JSON := .obj [("note", .str "x")]

/-- The C3 counterexample document. -/
def docC3 : JSON :=
  .obj [("resourceType", .str "CarePlan"), ("careTeam", .arr [elemC3])]

/-- C3 counterexample: the claim says every object element of a
CarePlan careTeam list ends with field set inside {reference, display};
but the stripping of lines 170-178 fires only when the element has a
reference field, so the element with single field note survives
unchanged and note is neither reference nor display. -/
theorem claim_C3_counterexample :
    go ctx0 false false false docC3 = some docC3 ∧
    keysF [("note", JSON.str "x")] = ["note"] ∧
    ¬("note" = "reference" ∨ "note" = "display") :=
  ⟨rfl, rfl, by simp⟩

/-- C3 amended: for an object processed inside a CarePlan.careTeam list
(the careplan flag of the walk; the other two flags are mutually
exclusive with it at every call site) that has a reference key, every
field of the surviving object is reference or display. -/
theorem claim_C3 (ctx : Ctx) (fs fs2 : List (String × JSON))
    (hr : hasKey fs "reference" = true)
    (hgo : go ctx false false true (.obj fs) = some (.obj fs2)) :
    ∀ k v, (k, v) ∈ fs2 → k = "reference" ∨ k = "display" := by
  intro k v hm
  cases href : ref_step ctx fs with
  | none => rw [go_obj_removed href] at hgo; exact absurd hgo (by simp)
  | some fs1 =>
    rw [go_obj_some href] at hgo
    have hfs2 : fs2 = eraseKeysL
        (goEntriesW ctx (rtIs fs "Observation") (rtIs fs "CarePlan")
          (rtIs fs "MedicationRequest") (phaseF true fs1) (phaseF true fs1) []).1
        (goEntriesW ctx (rtIs fs "Observation") (rtIs fs "CarePlan")
          (rtIs fs "MedicationRequest") (phaseF true fs1) (phaseF true fs1) []).2 ++
        provF ctx false true fs1 ++ whoF ctx false true fs1 := by
      injection Option.some.inj hgo with h2
      exact h2.symm
    have hr1 : hasKey fs1 "reference" = true := by
      have hk : "reference" ∈ keysF fs := keys_of_lookupM_isSome (by
        simpa [hasKey] using hr)
      rw [← ref_step_keys href] at hk
      simpa [hasKey] using lookupM_isSome_of_mem_keys hk
    have hfilter : phaseF true fs1 =
        fs1.filter (fun kv => kv.1 == "reference" || kv.1 == "display") := by
      unfold phaseF
      rw [if_pos (by simp [hr1])]
    rw [hfs2, provF_empty_of_e_false, whoF_empty_of_p_false,
      List.append_nil, List.append_nil] at hm
    have hk2 : k ∈ keysF (phaseF true fs1) := by
      have h3 := eraseKeysL_keys_sub (keysF_mem hm)
      rw [goEW_keys ctx _ _ _ _ _ [] (fun k2 h2 => h2)] at h3
      exact h3
    rw [hfilter] at hk2
    simp only [keysF, List.mem_map] at hk2
    obtain ⟨⟨k3, v3⟩, hm3, hk3⟩ := hk2
    subst hk3
    have hp := (List.mem_filter.mp hm3).2
    rcases Bool.or_eq_true_iff.mp hp with hp | hp
    · exact Or.inl (beq_iff_eq.mp hp)
    · exact Or.inr (beq_iff_eq.mp hp)

/-- C3 witness: the amended claim at a concrete careTeam element that
has a reference plus extraneous fields; the concrete run strips them. -/
theorem claim_C3_witness :
    go ctx0 false false true
      (.obj [("reference", .str "urn:uuid:zzz"), ("role", .str "lead"),
             ("display", .str "Team")]) =
      some (.obj [("reference", .str "urn:uuid:zzz"),
                  ("display", .str "Team")]) ∧
    ∀ k v, (k, v) ∈ [("reference", JSON.str "urn:uuid:zzz"),
        ("display", JSON.str "Team")] → k = "reference" ∨ k = "display" :=
  ⟨rfl, fun k v hm => claim_C3 ctx0
    [("reference", .str "urn:uuid:zzz"), ("role", .str "lead"),
     ("display", .str "Team")]
    [("reference", .str "urn:uuid:zzz"), ("display", .str "Team")]
    rfl rfl k v hm⟩

/-! ## Claim C9: survival of the injected provider and who objects -/

theorem orgref_not_urn (o : String) :
    strStarts ("Organization/" ++ o) "urn:uuid:" = false := by
  unfold strStarts chars
  rw [String.data_append "Organization/" o]
  rfl

theorem orgref_not_hash (o : String) :
    strStarts ("Organization/" ++ o) "#" = false := by
  unfold strStarts chars
  rw [String.data_append "Organization/" o]
  rfl

theorem orgref_break (o : String) :
    breakAtSlash (chars ("Organization/" ++ o)) =
      some (chars "Organization", chars o) := by
  unfold chars
  rw [String.data_append "Organization/" o]
  rfl

theorem practref_not_urn (o : String) :
    strStarts ("Practitioner/" ++ o) "urn:uuid:" = false := by
  unfold strStarts chars
  rw [String.data_append "Practitioner/" o]
  rfl

theorem practref_not_hash (o : String) :
    strStarts ("Practitioner/" ++ o) "#" = false := by
  unfold strStarts chars
  rw [String.data_append "Practitioner/" o]
  rfl

theorem practref_break (o : String) :
    breakAtSlash (chars ("Practitioner/" ++ o)) =
      some (chars "Practitioner", chars o) := by
  unfold chars
  rw [String.data_append "Practitioner/" o]
  rfl

/-- The fate of an injected reference object Prefix/o, when the id does
not smuggle the identifier-reference pattern into the string: kept
exactly when o is UUID-shaped (reference unchanged) or resolves in the
identifier map (reference rewritten). -/
theorem goInjected_slash {ctx : Ctx} {s o : String} {bef : List Char}
    (hurn : strStarts s "urn:uuid:" = false)
    (hguard : (strHasSub s "?identifier=" && strHasSub s "|") = false)
    (hhash : strStarts s "#" = false)
    (hbreak : breakAtSlash (chars s) = some (bef, chars o)) :
    goInjected ctx s =
      if is_uuid_format o then some (.obj [("reference", .str s)])
      else
        match lookupM ctx.identifierMap o with
        | some (mt, mid) => some (.obj [("reference", .str (mt ++ "/" ++ mid))])
        | none => none := by
  have hmk : String.mk (chars o) = o := rfl
  unfold goInjected
  by_cases hu : is_uuid_format o = true
  · rw [refResolve_slash_uuid hurn hguard hhash hbreak (by rw [hmk]; exact hu)]
    rw [if_pos hu]
  · rw [if_neg hu]
    cases hlk : lookupM ctx.identifierMap o with
    | none =>
      rw [refResolve_slash_miss hurn hguard hhash hbreak
        (by rw [hmk]; simpa using hu) (by rw [hmk]; exact hlk)]
    | some pr =>
      obtain ⟨mt, mid⟩ := pr
      rw [refResolve_slash_map hurn hguard hhash hbreak
        (by rw [hmk]; simpa using hu) (by rw [hmk]; exact hlk)]

theorem lookup_fs2_tail {pr1 : List (String × JSON)} {pr2 : List String}
    {provFields whoFields : List (String × JSON)} {k : String}
    (hk : k ∉ keysF pr1) :
    lookupM (eraseKeysL pr1 pr2 ++ provFields ++ whoFields) k =
      lookupM (provFields ++ whoFields) k := by
  rw [List.append_assoc]
  apply lookupM_append_right
  intro hmem
  exact hk (eraseKeysL_keys_sub hmem)

/-- C9 counterexample context: an organization id containing the
identifier-reference pattern, with empty maps. -/
def ctxC9 : Ctx := ⟨[], [], some "x?identifier=a|b", none⟩

/-- C9 counterexample: the claim says the injected provider survives if
and only if the configured organization id is UUID-shaped or a key of
the identifier map.  With the id x?identifier=a|b (neither), the
injected reference hits the identifier-pattern branch, whose regex
fails to match, and the object survives untouched -- refuting the
only-if direction. -/
theorem claim_C9_counterexample :
    go ctxC9 true false false (.obj []) =
      some (.obj [("provider",
        .obj [("reference", .str "Organization/x?identifier=a|b")])]) ∧
    is_uuid_format "x?identifier=a|b" = false ∧
    lookupM ctxC9.identifierMap "x?identifier=a|b" = none :=
  ⟨rfl, rfl, rfl⟩

/-- C9 amended: the provider and who objects are injected before the
snapshot and traversed by the same pass; provided the injected
reference string does not contain both ?identifier= and a pipe, the
injected field survives in the output if and only if the configured id
is UUID-shaped or a key of the effective identifier map. -/
theorem claim_C9 :
    (∀ (ctx : Ctx) (fs fs2 : List (String × JSON)) (o : String),
      ctx.organizationId = some o → o ≠ "" →
      hasKey fs "provider" = false →
      (strHasSub ("Organization/" ++ o) "?identifier=" &&
        strHasSub ("Organization/" ++ o) "|") = false →
      go ctx true false false (.obj fs) = some (.obj fs2) →
      (hasKey fs2 "provider" = true ↔
        (is_uuid_format o = true ∨
          (lookupM ctx.identifierMap o).isSome = true))) ∧
    (∀ (ctx : Ctx) (fs fs2 : List (String × JSON)) (o : String),
      ctx.practitionerId = some o → o ≠ "" →
      hasKey fs "who" = false →
      (strHasSub ("Practitioner/" ++ o) "?identifier=" &&
        strHasSub ("Practitioner/" ++ o) "|") = false →
      go ctx false true false (.obj fs) = some (.obj fs2) →
      (hasKey fs2 "who" = true ↔
        (is_uuid_format o = true ∨
          (lookupM ctx.identifierMap o).isSome = true))) := by
  constructor
  · intro ctx fs fs2 o hctx ho hnp hguard hgo
    cases href : ref_step ctx fs with
    | none => rw [go_obj_removed href] at hgo; exact absurd hgo (by simp)
    | some fs1 =>
      rw [go_obj_some href] at hgo
      have hfs2 : fs2 = eraseKeysL
          (goEntriesW ctx (rtIs fs "Observation") (rtIs fs "CarePlan")
            (rtIs fs "MedicationRequest") (phaseF false fs1) (phaseF false fs1) []).1
          (goEntriesW ctx (rtIs fs "Observation") (rtIs fs "CarePlan")
            (rtIs fs "MedicationRequest") (phaseF false fs1) (phaseF false fs1) []).2 ++
          provF ctx true false fs1 ++ whoF ctx false false fs1 := by
        injection Option.some.inj hgo with h2
        exact h2.symm
      have hnp1 : hasKey fs1 "provider" = false := by
        cases hx : hasKey fs1 "provider" with
        | false => rfl
        | true =>
          exfalso
          have hk := keys_of_lookupM_isSome (by simpa [hasKey] using hx)
          rw [ref_step_keys href] at hk
          have := lookupM_isSome_of_mem_keys hk
          rw [show lookupM fs "provider" = none by
            simpa [hasKey, Option.isSome_iff_exists] using hnp] at this
          simp at this
      have hprovF : provF ctx true false fs1 =
          match goInjected ctx ("Organization/" ++ o) with
          | some r => [("provider", r)]
          | none => [] := by
        unfold provF
        rw [if_pos (by simp [truthyS, hctx, ho, hnp1])]
        rw [show orgIdStr ctx = o by simp [orgIdStr, hctx]]
      have hnk : "provider" ∉ keysF (goEntriesW ctx (rtIs fs "Observation")
          (rtIs fs "CarePlan") (rtIs fs "MedicationRequest")
          (phaseF false fs1) (phaseF false fs1) []).1 := by
        rw [goEW_keys ctx _ _ _ _ _ [] (fun k2 h2 => h2), phaseF_of_c_false]
        intro hk
        have := lookupM_isSome_of_mem_keys hk
        rw [show lookupM fs1 "provider" = none by
          simpa [hasKey, Option.isSome_iff_exists] using hnp1] at this
        simp at this
      rw [hfs2, hasKey]
      rw [lookup_fs2_tail hnk]
      rw [hprovF, whoF_empty_of_p_false]
      rw [goInjected_slash (orgref_not_urn o) hguard (orgref_not_hash o)
        (orgref_break o)]
      by_cases hu : is_uuid_format o = true
      · rw [if_pos hu]
        simp [lookupM, hu]
      · rw [if_neg hu]
        cases hlk : lookupM ctx.identifierMap o with
        | none => simp [lookupM, hu, hlk]
        | some pr =>
          obtain ⟨mt, mid⟩ := pr
          simp [lookupM, hu, hlk]
  · intro ctx fs fs2 o hctx ho hnp hguard hgo
    cases href : ref_step ctx fs with
    | none => rw [go_obj_removed href] at hgo; exact absurd hgo (by simp)
    | some fs1 =>
      rw [go_obj_some href] at hgo
      have hfs2 : fs2 = eraseKeysL
          (goEntriesW ctx (rtIs fs "Observation") (rtIs fs "CarePlan")
            (rtIs fs "MedicationRequest") (phaseF false fs1) (phaseF false fs1) []).1
          (goEntriesW ctx (rtIs fs "Observation") (rtIs fs "CarePlan")
            (rtIs fs "MedicationRequest") (phaseF false fs1) (phaseF false fs1) []).2 ++
          provF ctx false false fs1 ++ whoF ctx true false fs1 := by
        injection Option.some.inj hgo with h2
        exact h2.symm
      have hnp1 : hasKey fs1 "who" = false := by
        cases hx : hasKey fs1 "who" with
        | false => rfl
        | true =>
          exfalso
          have hk := keys_of_lookupM_isSome (by simpa [hasKey] using hx)
          rw [ref_step_keys href] at hk
          have := lookupM_isSome_of_mem_keys hk
          rw [show lookupM fs "who" = none by
            simpa [hasKey, Option.isSome_iff_exists] using hnp] at this
          simp at this
      have hwhoF : whoF ctx true false fs1 =
          match goInjected ctx ("Practitioner/" ++ o) with
          | some r => [("who", r)]
          | none => [] := by
        unfold whoF
        rw [if_pos (by
          rw [phaseF_of_c_false]
          simp [truthyS, hctx, ho, hnp1])]
        rw [show practIdStr ctx = o by simp [practIdStr, hctx]]
      have hnk : "who" ∉ keysF (goEntriesW ctx (rtIs fs "Observation")
          (rtIs fs "CarePlan") (rtIs fs "MedicationRequest")
          (phaseF false fs1) (phaseF false fs1) []).1 := by
        rw [goEW_keys ctx _ _ _ _ _ [] (fun k2 h2 => h2), phaseF_of_c_false]
        intro hk
        have := lookupM_isSome_of_mem_keys hk
        rw [show lookupM fs1 "who" = none by
          simpa [hasKey, Option.isSome_iff_exists] using hnp1] at this
        simp at this
      rw [hfs2, hasKey]
      rw [lookup_fs2_tail hnk]
      rw [hwhoF, provF_empty_of_e_false]
      rw [List.nil_append]
      rw [goInjected_slash (practref_not_urn o) hguard (practref_not_hash o)
        (practref_break o)]
      by_cases hu : is_uuid_format o = true
      · rw [if_pos hu]
        simp [lookupM, hu]
      · rw [if_neg hu]
        cases hlk : lookupM ctx.identifierMap o with
        | none => simp [lookupM, hu, hlk]
        | some pr =>
          obtain ⟨mt, mid⟩ := pr
          simp [lookupM, hu, hlk]

/-- C9 witness context: a UUID-shaped organization id. -/
def ctxC9w : Ctx :=
  ⟨[], [], some "2befa435-3070-3350-a15c-e43ac1e84b24", none⟩

/-- C9 witness: the amended claim at a concrete UUID-shaped organization
id, where the injected provider survives. -/
theorem claim_C9_witness :
    go ctxC9w true false false (.obj []) =
      some (.obj [("provider", .obj [("reference",
        .str "Organization/2befa435-3070-3350-a15c-e43ac1e84b24")])]) ∧
    hasKey [("provider", JSON.obj [("reference",
        JSON.str "Organization/2befa435-3070-3350-a15c-e43ac1e84b24")])]
      "provider" = true ∧
    (is_uuid_format "2befa435-3070-3350-a15c-e43ac1e84b24" = true ∨
      (lookupM ctxC9w.identifierMap
        "2befa435-3070-3350-a15c-e43ac1e84b24").isSome = true) :=
  ⟨rfl, rfl,
    (claim_C9.1 ctxC9w []
      [("provider", .obj [("reference",
        .str "Organization/2befa435-3070-3350-a15c-e43ac1e84b24")])]
      "2befa435-3070-3350-a15c-e43ac1e84b24" rfl (by simp) rfl rfl rfl).mp rfl⟩

/-! ## Claim C2: MedicationRequest.dosageInstruction -/

theorem strip_mem_obj {xs : List JSON} {g : List (String × JSON)}
    (h : .obj g ∈ strip_dosage_items xs) :
    lookupM g "additionalInstruction" = none := by
  induction xs with
  | nil => simp [strip_dosage_items] at h
  | cons x rest ih =>
    cases x with
    | obj g1 =>
      simp only [strip_dosage_items] at h
      rcases List.mem_cons.mp h with h | h
      · have hge : g = g1.filter (fun kv => kv.1 != "additionalInstruction") := by
          injection h with h3
        rw [hge]
        exact lookupM_filter_keyfun_none _ (fun v => by simp)
      · exact ih h
    | null =>
      simp only [strip_dosage_items] at h
      rcases List.mem_cons.mp h with h | h
      · exact absurd h.symm (by simp)
      · exact ih h
    | bool b =>
      simp only [strip_dosage_items] at h
      rcases List.mem_cons.mp h with h | h
      · exact absurd h.symm (by simp)
      · exact ih h
    | num n =>
      simp only [strip_dosage_items] at h
      rcases List.mem_cons.mp h with h | h
      · exact absurd h.symm (by simp)
      · exact ih h
    | str s =>
      simp only [strip_dosage_items] at h
      rcases List.mem_cons.mp h with h | h
      · exact absurd h.symm (by simp)
      · exact ih h
    | arr ys =>
      simp only [strip_dosage_items] at h
      rcases List.mem_cons.mp h with h | h
      · exact absurd h.symm (by simp)
      · exact ih h

theorem go_some_obj_shape {ctx : Ctx} {e p c : Bool} {x : JSON}
    {g : List (String × JSON)} (h : go ctx e p c x = some (.obj g)) :
    ∃ g0, x = .obj g0 := by
  cases x with
  | obj g0 => exact ⟨g0, rfl⟩
  | null => rw [go_null] at h; exact absurd (Option.some.inj h) (by simp)
  | bool b => rw [go_bool] at h; exact absurd (Option.some.inj h) (by simp)
  | num n => rw [go_num] at h; exact absurd (Option.some.inj h) (by simp)
  | str s => rw [go_str] at h; exact absurd (Option.some.inj h) (by simp)
  | arr xs => rw [go_arr] at h; exact absurd (Option.some.inj h) (by simp)

theorem lookup_provwho_none {ctx : Ctx} {e p c : Bool}
    {fs1 : List (String × JSON)} {k : String}
    (hkp : k ≠ "provider") (hkw : k ≠ "who") :
    lookupM (provF ctx e c fs1 ++ whoF ctx p c fs1) k = none := by
  apply lookupM_none_of_not_mem_keys
  intro hmem
  simp only [keysF, List.mem_map] at hmem
  obtain ⟨⟨k2, v2⟩, hm, hk⟩ := hmem
  subst hk
  rcases List.mem_append.mp hm with hm | hm
  · exact hkp (provF_shape hm).1
  · exact hkw (whoF_shape hm).1

/-- C2 amended: for a MedicationRequest object with a dosageInstruction
list, the walk first removes additionalInstruction from every dict
element of that list and then recurses into the list like any other
field (there is no continue after lines 203-208); the output value of
dosageInstruction, when the field survives, is the ordinary walk of the
stripped list, and in particular no surviving element retains an
additionalInstruction field at its top level. -/
theorem claim_C2 (ctx : Ctx) (e p c : Bool)
    (fs fs2 : List (String × JSON)) (xs : List JSON)
    (hd : distinctKeys (keysF fs) = true)
    (hmr : rtIs fs "MedicationRequest" = true)
    (hdi : lookupM fs "dosageInstruction" = some (.arr xs))
    (hgo : go ctx e p c (.obj fs) = some (.obj fs2)) :
    (lookupM fs2 "dosageInstruction" = none ∨
      lookupM fs2 "dosageInstruction" =
        some (.arr (goListW ctx false false false (strip_dosage_items xs)))) ∧
    (∀ ys g, lookupM fs2 "dosageInstruction" = some (.arr ys) →
      .obj g ∈ ys → hasKey g "additionalInstruction" = false) := by
  have main : lookupM fs2 "dosageInstruction" = none ∨
      lookupM fs2 "dosageInstruction" =
        some (.arr (goListW ctx false false false (strip_dosage_items xs))) := by
    cases href : ref_step ctx fs with
    | none => rw [go_obj_removed href] at hgo; exact absurd hgo (by simp)
    | some fs1 =>
      rw [go_obj_some href] at hgo
      have hfs2 : fs2 = eraseKeysL
          (goEntriesW ctx (rtIs fs "Observation") (rtIs fs "CarePlan")
            (rtIs fs "MedicationRequest") (phaseF c fs1) (phaseF c fs1) []).1
          (goEntriesW ctx (rtIs fs "Observation") (rtIs fs "CarePlan")
            (rtIs fs "MedicationRequest") (phaseF c fs1) (phaseF c fs1) []).2 ++
          provF ctx e c fs1 ++ whoF ctx p c fs1 := by
        injection Option.some.inj hgo with h2
        exact h2.symm
      have hd1 : distinctKeys (keysF fs1) = true := by
        rw [ref_step_keys href]
        exact hd
      have hdi1 : lookupM fs1 "dosageInstruction" = some (.arr xs) := by
        rw [ref_step_lookup_ne href (by decide)]
        exact hdi
      by_cases hfOn : (c && hasKey fs1 "reference") = true
      · -- the careTeam filter fires and deletes the field entirely
        have hph : phaseF c fs1 =
            fs1.filter (fun kv => kv.1 == "reference" || kv.1 == "display") := by
          unfold phaseF
          rw [if_pos hfOn]
        have hnk : "dosageInstruction" ∉ keysF (goEntriesW ctx
            (rtIs fs "Observation") (rtIs fs "CarePlan")
            (rtIs fs "MedicationRequest") (phaseF c fs1) (phaseF c fs1) []).1 := by
          rw [goEW_keys ctx _ _ _ _ _ [] (fun k2 h2 => h2), hph]
          intro hk
          simp only [keysF, List.mem_map] at hk
          obtain ⟨⟨k3, v3⟩, hm3, hk3⟩ := hk
          have hp := (List.mem_filter.mp hm3).2
          rw [show k3 = "dosageInstruction" from hk3] at hp
          have hp2 : (("dosageInstruction" : String) == "reference" ||
              ("dosageInstruction" : String) == "display") = true := hp
          rcases Bool.or_eq_true_iff.mp hp2 with hp3 | hp3
          · exact absurd (beq_iff_eq.mp hp3) (by decide)
          · exact absurd (beq_iff_eq.mp hp3) (by decide)
        rw [hfs2, lookup_fs2_tail hnk,
          lookup_provwho_none (by decide) (by decide)]
        exact Or.inl rfl
      · -- no filter: the field is processed by the snapshot loop
        have hph : phaseF c fs1 = fs1 := by
          unfold phaseF
          rw [if_neg hfOn]
        have hdF : distinctKeys (keysF (phaseF c fs1)) = true := by
          rw [hph]
          exact hd1
        have hdiF : lookupM (phaseF c fs1) "dosageInstruction" =
            some (.arr xs) := by
          rw [hph]
          exact hdi1
        set pr := goEntriesW ctx (rtIs fs "Observation") (rtIs fs "CarePlan")
          (rtIs fs "MedicationRequest") (phaseF c fs1) (phaseF c fs1) []
          with hprdef
        have hgood : ∀ k v, (k, v) ∈ pr.1 → memS pr.2 k = false →
            (k = "dosageInstruction" →
              v = .arr (goListW ctx false false false
                (strip_dosage_items xs))) := by
          refine goEW_inv ctx (rtIs fs "Observation") (rtIs fs "CarePlan")
            (rtIs fs "MedicationRequest")
            (fun k2 v2 => k2 = "dosageInstruction" →
              v2 = .arr (goListW ctx false false false (strip_dosage_items xs)))
            (phaseF c fs1) (phaseF c fs1) [] ?_ hdF (fun k2 h2 => h2)
            (fun k2 v2 hm3 _ => Or.inl (keysF_mem hm3))
          intro k2 v2 hm2 _ _ e2 p2 c2 r2 hfe hfp hfc hgo2 hk2
          subst hk2
          have hv2 : v2 = .arr xs := by
            have := lookupM_eq_of_mem_distinct hdF hm2
            rw [hdiF] at this
            exact Option.some.inj this.symm
          subst hv2
          have he2 : e2 = false := by
            cases e2 with
            | false => rfl
            | true => exact absurd (hfe rfl) (by decide)
          have hp2 : p2 = false := by
            cases p2 with
            | false => rfl
            | true => exact absurd (hfp rfl) (by decide)
          have hc2 : c2 = false := by
            cases c2 with
            | false => rfl
            | true => exact absurd (hfc rfl) (by decide)
          subst he2
          subst hp2
          subst hc2
          rw [show dosage_step (rtIs fs "MedicationRequest")
              "dosageInstruction" (.arr xs) =
              .arr (strip_dosage_items xs) from by
            rw [show dosage_step (rtIs fs "MedicationRequest")
                "dosageInstruction" (JSON.arr xs) =
                if (rtIs fs "MedicationRequest" &&
                    "dosageInstruction" == "dosageInstruction") = true then
                  JSON.arr (strip_dosage_items xs)
                else JSON.arr xs from rfl, if_pos (by simp [hmr])],
            go_arr] at hgo2
          exact (Option.some.inj hgo2).symm
        have hkey : "dosageInstruction" ∈ keysF pr.1 := by
          rw [hprdef, goEW_keys ctx _ _ _ _ _ [] (fun k2 h2 => h2)]
          exact keys_of_lookupM_isSome (by simp [hdiF])
        have hnotdel : memS pr.2 "dosageInstruction" = false := by
          cases hmd : memS pr.2 "dosageInstruction" with
          | false => rfl
          | true =>
            exfalso
            rcases goEW_dels ctx _ _ _ (phaseF c fs1) (phaseF c fs1) [] _ hmd
              with hin | ⟨v, hv, hc2⟩
            · simp [memS] at hin
            · have hveq : v = .arr xs := by
                have := lookupM_eq_of_mem_distinct hdF hv
                rw [hdiF] at this
                exact Option.some.inj this.symm
              subst hveq
              rcases hc2 with hc2 | hc2 | ⟨e2, p2, c2, hc2⟩
              · exact absurd hc2 (by decide)
              · rw [Bool.and_eq_true] at hc2
                exact absurd hc2.2 (by decide)
              · rw [show dosage_step (rtIs fs "MedicationRequest")
                    "dosageInstruction" (.arr xs) =
                    .arr (strip_dosage_items xs) from by
                  rw [show dosage_step (rtIs fs "MedicationRequest")
                      "dosageInstruction" (JSON.arr xs) =
                      if (rtIs fs "MedicationRequest" &&
                          "dosageInstruction" == "dosageInstruction") = true then
                        JSON.arr (strip_dosage_items xs)
                      else JSON.arr xs from rfl, if_pos (by simp [hmr])],
                  go_arr] at hc2
                exact absurd hc2 (by simp)
        obtain ⟨v, hvmem⟩ : ∃ v, lookupM pr.1 "dosageInstruction" = some v := by
          have := lookupM_isSome_of_mem_keys hkey
          cases hx : lookupM pr.1 "dosageInstruction" with
          | none => rw [hx] at this; simp at this
          | some v => exact ⟨v, rfl⟩
        have hvt := hgood _ _ (lookupM_mem hvmem) hnotdel rfl
        subst hvt
        refine Or.inr ?_
        rw [hfs2]
        have h5 : lookupM (eraseKeysL pr.1 pr.2) "dosageInstruction" =
            some (.arr (goListW ctx false false false
              (strip_dosage_items xs))) := by
          rw [lookupM_eraseKeysL hnotdel]
          exact hvmem
        exact lookupM_append_left (lookupM_append_left h5)
  refine ⟨main, ?_⟩
  intro ys g hys hg
  rcases main with hnone | hsome
  · rw [hys] at hnone
    exact absurd hnone (by simp)
  · rw [hys] at hsome
    have hyseq : ys = goListW ctx false false false (strip_dosage_items xs) := by
      have h2 := Option.some.inj hsome
      injection h2
    rw [hyseq] at hg
    obtain ⟨x, hx, hgx⟩ := goListW_mem hg
    obtain ⟨g0, rfl⟩ := go_some_obj_shape hgx
    have h0 := strip_mem_obj hx
    cases hhk : hasKey g "additionalInstruction" with
    | false => rfl
    | true =>
      exfalso
      have hk := keys_of_lookupM_isSome (by simpa [hasKey] using hhk)
      have hk0 := go_keys_false hgx _ hk
      have := lookupM_isSome_of_mem_keys hk0
      rw [h0] at this
      simp at this

/-- The dosage element of the C2 counterexample, carrying both an
additionalInstruction and a period. -/
def dosC2 : JSON := .obj [("additionalInstruction", .str "a"), ("period", .obj [])]

/-- The C2 counterexample document. -/
def docC2 : JSON :=
  .obj [("resourceType", .str "MedicationRequest"),
        ("dosageInstruction", .arr [dosC2])]

/-- C2 counterexample: the claim says the rewrite performs no further
recursion into the dosage items beyond removing additionalInstruction;
but the walk does recurse into the list afterwards (no continue after
line 208), so the period field inside the dosage element is also
removed: the actual output element is the empty object, not the
strip-only prediction that keeps period. -/
theorem claim_C2_counterexample :
    go ctx0 false false false docC2 =
      some (.obj [("resourceType", .str "MedicationRequest"),
                  ("dosageInstruction", .arr [.obj []])]) ∧
    strip_dosage_items [dosC2] = [.obj [("period", .obj [])]] ∧
    [JSON.obj []] ≠ [JSON.obj [("period", JSON.obj [])]] :=
  ⟨rfl, rfl, by simp⟩

/-- C2 witness: the amended claim at the concrete MedicationRequest
document docC2; the surviving dosage element has no
additionalInstruction. -/
theorem claim_C2_witness :
    hasKey ([] : List (String × JSON)) "additionalInstruction" = false :=
  (claim_C2 ctx0 false false false
    [("resourceType", .str "MedicationRequest"),
     ("dosageInstruction", .arr [dosC2])]
    [("resourceType", .str "MedicationRequest"),
     ("dosageInstruction", .arr [.obj []])]
    [dosC2] rfl rfl rfl rfl).2 [.obj []] [] rfl (by simp)

end Script
